import Mathlib

/-!
# A verification model of parlaylib's atomic reference-counted pointer core

This file gives a shallow embedding of the concurrency core of the
repository: the counted box (`counted_object`), the owning handle
(`rc_ptr`), the snapshot handle (`snapshot_ptr`), the atomic cell
(`atomic_rc_ptr`) and the acquire-retire reclamation engine
(`acquire_retire`), together with theorems about the embedded
operations.

Modelling conventions:
* Box pointers are natural numbers, with `0` standing for `nullptr`.
* The heap records each box's reference count (`std::atomic<uint64_t>
  ref_cnt`, so arithmetic is modulo `2^64`) and the list of boxes that
  have been freed (`delete ptr`).
* The source contains several historical overlapping definitions of the
  acquire-retire engine; following the repository's own designation, the
  canonical definition is the one with snapshot announcement slots and an
  `Incrementer` functor (the first definition in the acquire-retire
  header), and the engine here is translated from it.  The `Deleter` and
  `Incrementer` functors are instantiated with `counted_deleter` /
  `increment_counter` from atomic_rc_ptr.h, the instantiation the
  repository uses for counted boxes.
* Loops are modelled with explicit fuel; stateful code is explicit state
  passing.  Concurrent interference on an atomic location that a loop
  re-reads is modelled by an oracle `reads : Nat → Nat` giving the value
  observed by each successive atomic load; spurious
  `compare_exchange_weak` failures by an oracle `spur : Nat → Bool`.
-/

namespace Parlay

/-- `2^64`, the modulus of the `uint64_t` reference count. -/
def U64 : Nat := 18446744073709551616

/-- Pointwise function update (models a store to one heap location). -/
def upd (f : Nat → Nat) (a b : Nat) : Nat → Nat :=
  fun x => if x = a then b else f x

/-- The heap of counted boxes: `refs p` is the current value of box `p`'s
`ref_cnt`; `freed` records the boxes that have been `delete`d, most
recent first. -/
structure Heap where
  refs : Nat → Nat
  freed : List Nat

/-- `counted_object::add_refs(1)` via `increment_counter` (rc_ptr.h /
atomic_rc_ptr.h): `ptr->add_refs(1)`, a `fetch_add` on a `uint64_t`. -/
def increment_counter (p : Nat) (h : Heap) : Heap :=
  { h with refs := upd h.refs p ((h.refs p + 1) % U64) }

/-- `decrement_counter` (rc_ptr.h / atomic_rc_ptr.h):
`if (ptr->release_refs(1) == 1) { delete ptr; }` — a `fetch_sub(1)` on a
`uint64_t` (hence the wrap-around), freeing the box when the previous
count was `1`.  This is also `counted_deleter::operator()`, the `Deleter`
with which the engine is instantiated. -/
def decrement_counter (p : Nat) (h : Heap) : Heap :=
  { refs := upd h.refs p ((h.refs p + (U64 - 1)) % U64),
    freed := if h.refs p = 1 then p :: h.freed else h.freed }

/-- All reference counts are in range for `uint64_t`. -/
def HeapWf (h : Heap) : Prop := ∀ p, h.refs p < U64

/-! ## Owning handle observers (`rc_ptr`, rc_ptr.h)

An owning handle is just its raw box pointer (`internal::counted_object<T>* ptr`,
`0` = null).  `objAddr p` models `p->get()`, the address of the value
embedded in box `p`. -/

/-- `rc_ptr::get`: `(ptr == nullptr) ? nullptr : ptr->get()`. -/
def rc_ptr_get (ptr : Nat) (objAddr : Nat → Nat) : Nat :=
  if ptr = 0 then 0 else objAddr ptr

/-- `rc_ptr::operator->`: `(ptr == nullptr) ? nullptr : ptr->get()`. -/
def rc_ptr_arrow (ptr : Nat) (objAddr : Nat → Nat) : Nat :=
  if ptr = 0 then 0 else objAddr ptr

/-- `rc_ptr::operator bool`: `ptr != nullptr`. -/
def rc_ptr_toBool (ptr : Nat) : Bool := ptr ≠ 0

/-- `rc_ptr::use_count`: `(ptr == nullptr) ? 0 : ptr->ref_cnt.load()`. -/
def rc_ptr_use_count (ptr : Nat) (h : Heap) : Nat :=
  if ptr = 0 then 0 else h.refs ptr

/-- `rc_ptr::operator==`: `get() == other.get()`. -/
def rc_ptr_eq (ptr other : Nat) (objAddr : Nat → Nat) : Bool :=
  rc_ptr_get ptr objAddr = rc_ptr_get other objAddr

/-- `rc_ptr::operator*`: `*(ptr->get())` — dereferences with no null
check; on a null handle the behaviour is undefined, modelled as `none`.
`mem a` is the value stored at address `a`. -/
def rc_ptr_star (ptr : Nat) (objAddr : Nat → Nat) (mem : Nat → Nat) : Option Nat :=
  if ptr = 0 then none else some (mem (objAddr ptr))

/-! ## Snapshot handle destruction (`snapshot_ptr::clear`, snapshot_ptr.h)

A snapshot handle holds a box pointer `ptr` and a pointer to the engine
announcement slot protecting it; `slotVal` is the slot's current
content.  `clear` returns the slot's new content and the new heap. -/

/-- `snapshot_ptr::clear`:
```
if (ptr != nullptr) {
  if (slot->load() == ptr) slot->store(nullptr);
  else decrement_counter(ptr);
  ptr = nullptr; slot = nullptr;
}
``` -/
def snapshot_clear (ptr slotVal : Nat) (h : Heap) : Nat × Heap :=
  if ptr ≠ 0 then
    if slotVal = ptr then (0, h)
    else (slotVal, decrement_counter ptr h)
  else (slotVal, h)

/-! ## `atomic_rc_ptr::swap` (atomic_rc_ptr.h)

```
void swap(rc_ptr<T>& desired) noexcept {
  auto desired_ptr = desired.release();
  auto current_ptr = <read of atomic_ptr>;
  desired = rc_ptr<T>(current_ptr, rc_ptr<T>::AddRef::no);
  while (!atomic_ptr.compare_exchange_weak(desired.ptr, desired_ptr)) { }
}
```
The caller must ensure no concurrent access to `desired`; under the
claim's precondition the cell is not concurrently replaced either, but
`compare_exchange_weak` may still fail spuriously, which the oracle
`spur` models (attempt `k` fails spuriously when `spur k = true`). -/

/-- The `compare_exchange_weak` retry loop of `swap`.  State: current
cell content, the handle's current (expected) pointer, and the value to
install.  On failure the handle is updated to the observed cell value,
exactly as `compare_exchange_weak` writes back into `desired.ptr`.
Returns `(new cell content, final handle pointer)`. -/
def casWeakLoop (spur : Nat → Bool) : Nat → Nat → Nat → Nat → Option (Nat × Nat)
  | 0, _, _, _ => none
  | fuel + 1, cell, expectedv, desired_ptr =>
      if cell = expectedv ∧ spur fuel = false then some (desired_ptr, expectedv)
      else casWeakLoop spur fuel cell cell desired_ptr

/-- `atomic_rc_ptr::swap` with the handle's pointer `d`.  Returns
`(new cell content, new handle pointer, heap)`. -/
def atomic_swap (spur : Nat → Bool) (fuel : Nat) (cell d : Nat) (h : Heap) :
    Option (Nat × Nat × Heap) :=
  let desired_ptr := d
  let current_ptr := cell
  (casWeakLoop spur fuel cell current_ptr desired_ptr).map
    (fun r => (r.1, r.2, h))

/-! ## `atomic_rc_ptr::compare_and_swap` as an event trace

To reason about what the worker's primary announcement slot holds
*during* the operation, the two `compare_and_swap` overloads
(atomic_rc_ptr.h lines 211–246) are translated into the sequence of
primitive effects they perform, in program order. -/

inductive CasEv where
  /-- A store to the calling worker's primary announcement slot. -/
  | announceStore (v : Nat)
  /-- `atomic_ptr.compare_exchange_strong(expected_ptr, desired_ptr)`. -/
  | casStep (expectedv desiredv : Nat) (success : Bool)
  /-- `ar.retire(expected_ptr, worker_id())`. -/
  | retireCall (p : Nat)
  /-- `ar.perform_deferred_decrements(worker_id())`. -/
  | performCall
  /-- `increment_counter(desired_ptr)` — the ref-count deposit of the copy form. -/
  | addRef (p : Nat)
  /-- `desired.release()` — the count transfer of the move form. -/
  | handleRelease (p : Nat)
deriving DecidableEq, Repr

/-- Event trace of the copy overload
`compare_and_swap(const rc_ptr<T>&, const rc_ptr<T>&)` executed on a cell
holding `cell`:
```
if (atomic_ptr.compare_exchange_strong(expected_ptr, desired_ptr)) {
  if (expected_ptr != nullptr) { ar.retire(...); ar.perform_deferred_decrements(...); }
  // Note: We need to protect desired
  if (desired_ptr != nullptr) increment_counter(desired_ptr);
  return true;
} else return false;
``` -/
def cas_copy_events (cell expectedv desiredv : Nat) : List CasEv :=
  if cell = expectedv then
    [CasEv.casStep expectedv desiredv true]
    ++ (if expectedv ≠ 0 then [CasEv.retireCall expectedv, CasEv.performCall] else [])
    ++ (if desiredv ≠ 0 then [CasEv.addRef desiredv] else [])
  else [CasEv.casStep expectedv desiredv false]

/-- Event trace of the move overload
`compare_and_swap(const rc_ptr<T>&, rc_ptr<T>&&)`: the same, except that
on success it performs `desired.release()` instead of an increment. -/
def cas_move_events (cell expectedv desiredv : Nat) : List CasEv :=
  if cell = expectedv then
    [CasEv.casStep expectedv desiredv true]
    ++ (if expectedv ≠ 0 then [CasEv.retireCall expectedv, CasEv.performCall] else [])
    ++ (if desiredv ≠ 0 then [CasEv.handleRelease desiredv] else [])
  else [CasEv.casStep expectedv desiredv false]

/-- The announcement slot's content after executing a prefix of the
trace, starting from slot content `slot0`. -/
def slotAfter (slot0 : Nat) (tr : List CasEv) : Nat :=
  tr.foldl (fun s ev => match ev with
    | CasEv.announceStore v => v
    | _ => s) slot0

/-- Index of the first CAS step in a trace (trace length if none). -/
def casIdx (tr : List CasEv) : Nat :=
  tr.findIdx (fun ev => match ev with | CasEv.casStep _ _ _ => true | _ => false)

/-- Index of the increment of box `d` in a trace (trace length if none). -/
def addRefIdx (d : Nat) (tr : List CasEv) : Nat :=
  tr.findIdx (fun ev => ev = CasEv.addRef d)

/-- Whether an event is a store to the primary announcement slot. -/
def isAnnounceStore : CasEv → Bool
  | CasEv.announceStore _ => true
  | _ => false

/-- The reservation property the claim asserts of the copy form: the
worker's primary announcement slot holds `d` at every instant from just
before the CAS step until just after the increment of `d`'s count. -/
def reservedAcrossCas (slot0 d : Nat) (tr : List CasEv) : Prop :=
  ∀ k < tr.length + 1,
    casIdx tr ≤ k → k ≤ addRefIdx d tr + 1 →
      slotAfter slot0 (tr.take k) = d

instance (slot0 d : Nat) (tr : List CasEv) :
    Decidable (reservedAcrossCas slot0 d tr) := by
  unfold reservedAcrossCas; infer_instance

/-! ## `acquire` and `atomic_rc_ptr::load`

`acquire_retire::acquire` (announcement-stabilized read):
```
T result;
do {
  result = p->load(std::memory_order_seq_cst);
  announcement_slots[id].announcement.store(result, std::memory_order_seq_cst);
} while (p->load(std::memory_order_seq_cst) != result);
```
The oracle `reads j` is the value the cell's `j`-th atomic load returns
(interference from concurrent stores makes successive reads differ). -/

/-- The acquire loop: iteration `i` performs loads `2*i` and `2*i + 1`,
publishing the first in the worker's primary announcement slot between
them.  Returns `(result, slot content at return)`. -/
def acquireAux (reads : Nat → Nat) : Nat → Nat → Nat → Option (Nat × Nat)
  | 0, _, _ => none
  | fuel + 1, i, _slot =>
      let result := reads (2 * i)
      let slot1 := result
      if reads (2 * i + 1) = result then some (result, slot1)
      else acquireAux reads fuel (i + 1) slot1

/-- `atomic_rc_ptr::load`:
```
auto ptr = ar.acquire(&atomic_ptr, worker_id());
rc_ptr<T> result(ptr, rc_ptr<T>::AddRef::yes);
ar.release(worker_id());
return result;
```
`AddRef::yes` increments the box's count when the pointer is non-null;
`release` stores null into the primary announcement slot.  Returns
`(returned pointer, heap, slot content at return)`. -/
def load_model (reads : Nat → Nat) (fuel : Nat) (slot0 : Nat) (h : Heap) :
    Option (Nat × Heap × Nat) :=
  match acquireAux reads fuel 0 slot0 with
  | none => none
  | some (p, _slot) =>
      let h' := if p ≠ 0 then increment_counter p h else h
      some (p, h', 0)

/-! ## The tiny chained hash table (`tiny_table`, acquire_retire.h)

`tiny_table<T, B, Hash>` stores entries in insertion order in a
pre-allocated vector `entries`; `table : bucket → small_index` holds
1-based indices of chain heads (`0` = empty bucket), and each entry's
`next` is the 1-based index of the next entry in its chain.
`small_index` is `unsigned short`, so stored indices are reduced
modulo `2^16`. -/

/-- One `tiny_table` entry: `{ T value; small_index next; }`. -/
structure TTEntry where
  value : Nat
  next : Nat
deriving DecidableEq, Repr

/-- The modulus of `small_index` (`unsigned short`). -/
def SMALL_MOD : Nat := 65536

/-- A `tiny_table`.  `entries` is the used prefix of the entry vector
(so `entries.length` is the table's `size`); the capacity argument of
the constructor only feeds the debug assertion `assert(size < N)` and is
not part of the state. -/
structure TinyTable where
  entries : List TTEntry
  buckets : Nat → Nat

/-- A freshly constructed, empty `tiny_table`. -/
def tt_empty : TinyTable := ⟨[], fun _ => 0⟩

/-- `tiny_table::insert`:
```
entries[size].value = std::move(p);
size_t pos = Hash()(p) % B;
entries[size].next = table[pos];
table[pos] = size + 1;
size++;
``` -/
def tt_insert (hash : Nat → Nat) (B : Nat) (t : TinyTable) (p : Nat) : TinyTable :=
  let pos := hash p % B
  { entries := t.entries ++ [⟨p, t.buckets pos⟩],
    buckets := upd t.buckets pos ((t.entries.length + 1) % SMALL_MOD) }

/-- The chain walk of `tiny_table::find`:
```
while (id != 0) {
  if (entries[id - 1].value == p) return &(entries[id - 1].value);
  id = entries[id - 1].next;
}
return nullptr;
```
Termination is by fuel; on a well-formed table the chain indices
strictly decrease so any fuel of at least `id` is exact.  Returns the
0-based index of the found entry (the source returns a pointer to its
`value` field). -/
def tt_findAux (entries : List TTEntry) (p : Nat) : Nat → Nat → Option Nat
  | 0, _ => none
  | fuel + 1, id =>
      if id = 0 then none
      else match entries.get? (id - 1) with
        | none => none
        | some e => if e.value = p then some (id - 1) else tt_findAux entries p fuel e.next

/-- `tiny_table::find`: start the chain walk at the head of `p`'s bucket. -/
def tt_find (hash : Nat → Nat) (B : Nat) (t : TinyTable) (p : Nat) : Option Nat :=
  tt_findAux t.entries p (t.entries.length + 1) (t.buckets (hash p % B))

/-- `*it = nullptr` through the pointer `find` returned: overwrite the
`value` field of entry `i` with null, leaving its chain link intact. -/
def tt_setNull (t : TinyTable) (i : Nat) : TinyTable :=
  match t.entries.get? i with
  | some e => { t with entries := t.entries.set i ⟨0, e.next⟩ }
  | none => t

/-- The value stored at 0-based entry index `j` (`0` if out of range). -/
def valueAt (entries : List TTEntry) (j : Nat) : Nat :=
  ((entries.get? j).map TTEntry.value).getD 0

/-- The list of 0-based entry indices visited by a chain walk starting
at 1-based index `id` (fuel-bounded like `tt_findAux`). -/
def chainIdxs (entries : List TTEntry) : Nat → Nat → List Nat
  | 0, _ => []
  | fuel + 1, id =>
      if id = 0 then []
      else match entries.get? (id - 1) with
        | none => []
        | some e => (id - 1) :: chainIdxs entries fuel e.next

/-- The values currently stored in the table's entries, in insertion
order (nulled entries contribute `0`). -/
def ttVals (t : TinyTable) : List Nat := t.entries.map TTEntry.value

/-- The multiset of non-null values the table currently holds. -/
def ttContents (t : TinyTable) : Multiset Nat :=
  ((ttVals t).filter (fun v => v ≠ 0) : List Nat)

/-- Well-formedness of a `tiny_table`, as established by a sequence of
at most `2^16 - 1` inserts: bucket heads are in range, chain links
strictly decrease (each entry links only to earlier entries), and every
entry holding a non-null value is reachable from the bucket its value
hashes to. -/
structure TTWf (hash : Nat → Nat) (B : Nat) (t : TinyTable) : Prop where
  bpos : 0 < B
  cap : t.entries.length ≤ 65535
  bnd : ∀ q, t.buckets q ≤ t.entries.length
  nxt : ∀ i e, t.entries.get? i = some e → e.next ≤ i
  place : ∀ i e, t.entries.get? i = some e → e.value ≠ 0 →
            i ∈ chainIdxs t.entries (t.entries.length + 1) (t.buckets (hash e.value % B))

/-- Build a table by inserting every element of `A` in order (as
`scan_slots` does with the announced handles). -/
def tt_build (hash : Nat → Nat) (B : Nat) (A : List Nat) : TinyTable :=
  A.foldl (tt_insert hash B) tt_empty

/-! ## The acquire-retire engine (canonical definition, acquire_retire.h)

```
template<typename T, typename Deleter, typename Incrementer,
         size_t delay = 5, size_t snapshot_slots = 3>
struct acquire_retire { ... };
```
Per-worker state is a `LocalSlot` (primary announcement, round-robin
index `last_free`, `snapshot_slots` snapshot announcements), a
re-entrancy flag and a deferred-destruction queue. -/

structure LocalSlot where
  announcement : Nat
  last_free : Nat
  snapshot_announcements : List Nat
deriving DecidableEq, Repr

structure Engine where
  announcement_slots : List LocalSlot
  in_progress : List Bool
  deferred_destructs : List (List Nat)
deriving DecidableEq, Repr

/-- `announcement_slots.size()`, the number of worker threads `W`. -/
def Engine.numThreads (e : Engine) : Nat := e.announcement_slots.length

/-- The handles visited by `scan_slots`: for every worker, its primary
announcement if non-null, then each non-null snapshot announcement. -/
def announcedList (slots : List LocalSlot) : List Nat :=
  (slots.map (fun ls =>
    (if ls.announcement ≠ 0 then [ls.announcement] else []) ++
    ls.snapshot_announcements.filter (fun y => y ≠ 0))).flatten

/-- `acquire_retire::get_free_slot` for the calling worker's
`LocalSlot`:
```
for (size_t i = 0; i < snapshot_slots; i++)
  if (snapshot_announcements[i].load() == nullptr) return &snapshot_announcements[i];
auto kick_ptr = snapshot_announcements[last_free].load();
Incrementer{}(kick_ptr);
auto* return_slot = &snapshot_announcements[last_free];
last_free = (last_free + 1 == snapshot_slots) ? 0 : last_free + 1;
return return_slot;
```
Returns `(index of the returned slot, updated LocalSlot, updated heap)`;
the `Incrementer` is `increment_counter`. -/
def get_free_slot (ls : LocalSlot) (h : Heap) : Nat × LocalSlot × Heap :=
  match (List.range ls.snapshot_announcements.length).find?
      (fun i => ls.snapshot_announcements.getD i 0 == 0) with
  | some i => (i, ls, h)
  | none =>
      let kick_ptr := ls.snapshot_announcements.getD ls.last_free 0
      let return_slot := ls.last_free
      let lf' := if ls.last_free + 1 = ls.snapshot_announcements.length then 0
                 else ls.last_free + 1
      (return_slot, { ls with last_free := lf' }, increment_counter kick_ptr h)

/-- The processing loop of `perform_deferred_decrements` over the local
list of deferred handles:
```
auto f = [&](auto x) {
  auto it = announced.find(x);
  if (it == nullptr) { Deleter{}(x); return true; }
  else { *it = nullptr; return false; }
};
deferred.erase(remove_if(deferred.begin(), deferred.end(), f), deferred.end());
```
`remove_if` applies `f` to each element in order; the elements on which
`f` returned `false` (the retained ones) survive in order.  Returns
`(survivors, final table, final heap)`. -/
def processDefer (hash : Nat → Nat) (B : Nat) :
    List Nat → TinyTable → Heap → List Nat × TinyTable × Heap
  | [], t, h => ([], t, h)
  | x :: xs, t, h =>
      match tt_find hash B t x with
      | none =>
          processDefer hash B xs t (decrement_counter x h)
      | some i =>
          let r := processDefer hash B xs (tt_setNull t i) h
          (x :: r.1, r.2)

/-- Modelled from the spec: the reference reconciliation of one round of
deferred decrements, stated over the multiset `M` of announced handles
exactly as the spec words it — for each `p` in `L` in order, if `M`
contains `p`, consume one occurrence of `p` from `M` and retain `p`;
otherwise apply one decrement to `p`'s count (freeing the box when the
decrement brings it to zero).  Used solely to compare the table-based
code against the claim's multiset description. -/
def processSpec : List Nat → Multiset Nat → Heap → List Nat × Multiset Nat × Heap
  | [], M, h => ([], M, h)
  | x :: xs, M, h =>
      if x ∈ M then
        let r := processSpec xs (M.erase x) h
        (x :: r.1, r.2)
      else
        processSpec xs M (decrement_counter x h)

/-- The loop condition of `perform_deferred_decrements`:
`!in_progress[id] && deferred_destructs[id].size() >= announcement_slots.size() * delay`. -/
def flushCond (delay id : Nat) (e : Engine) : Bool :=
  !(e.in_progress.getD id true) &&
    decide (e.announcement_slots.length * delay ≤ (e.deferred_destructs.getD id []).length)

/-- One iteration of the `perform_deferred_decrements` loop body:
```
in_progress[id] = true;
auto deferred = AlignedVector<T>(std::move(deferred_destructs[id]));
tiny_table<T, 1024> announced(announcement_slots.size() * (1 + snapshot_slots));
scan_slots([&](auto reserved) { announced.insert(reserved); });
deferred.erase(remove_if(deferred.begin(), deferred.end(), f), deferred.end());
deferred_destructs[id].insert(deferred_destructs[id].end(), deferred.begin(), deferred.end());
in_progress[id] = false;
``` -/
def flushOnce (hash : Nat → Nat) (B id : Nat) (e : Engine) (h : Heap) : Engine × Heap :=
  let e1 := { e with in_progress := e.in_progress.set id true }
  let deferred := e1.deferred_destructs.getD id []
  let e2 := { e1 with deferred_destructs := e1.deferred_destructs.set id [] }
  let announced := tt_build hash B (announcedList e2.announcement_slots)
  let r := processDefer hash B deferred announced h
  let e3 := { e2 with deferred_destructs := e2.deferred_destructs.set id r.1 }
  ({ e3 with in_progress := e3.in_progress.set id false }, r.2.2)

/-- The `while` loop of `perform_deferred_decrements`, fuel-bounded.
On the canonical instantiation (`delay = 5`, `snapshot_slots = 3`) one
flush leaves at most `announcement_slots.size() * 4` survivors, below
the `announcement_slots.size() * 5` threshold, so the loop runs at most
one iteration and fuel `2` is exact. -/
def performDeferredAux (hash : Nat → Nat) (B delay id : Nat) :
    Nat → Engine × Heap → Engine × Heap
  | 0, s => s
  | fuel + 1, s =>
      if flushCond delay id s.1 then
        performDeferredAux hash B delay id fuel (flushOnce hash B id s.1 s.2)
      else s

/-- `acquire_retire::perform_deferred_decrements` for worker `id`. -/
def perform_deferred_decrements (hash : Nat → Nat) (B delay id : Nat)
    (s : Engine × Heap) : Engine × Heap :=
  performDeferredAux hash B delay id 2 s

/-- `acquire_retire::retire`:
```
deferred_destructs[id].push_back(p);
perform_deferred_decrements();
``` -/
def retire (hash : Nat → Nat) (B delay : Nat) (p id : Nat) (s : Engine × Heap) :
    Engine × Heap :=
  let e := s.1
  let e' := { e with deferred_destructs :=
    e.deferred_destructs.set id ((e.deferred_destructs.getD id []) ++ [p]) }
  perform_deferred_decrements hash B delay id (e', s.2)

/-- A sequence of further `retire` calls by worker `id`. -/
def retireMany (hash : Nat → Nat) (B delay id : Nat) (ps : List Nat)
    (s : Engine × Heap) : Engine × Heap :=
  ps.foldl (fun acc x => retire hash B delay x id acc) s

/-! ## The atomic cell with its engine (`atomic_rc_ptr`) -/

/-- An atomic cell (`std::atomic<counted_object<T>*> atomic_ptr`)
together with the engine state and the heap. -/
structure Sys where
  cell : Nat
  eng : Engine
  heap : Heap

/-- `atomic_rc_ptr::compare_and_swap(const rc_ptr&, const rc_ptr&)`
(copy form), executed by worker `id`:
```
if (atomic_ptr.compare_exchange_strong(expected_ptr, desired_ptr)) {
  if (expected_ptr != nullptr) { ar.retire(expected_ptr, ...); ar.perform_deferred_decrements(...); }
  if (desired_ptr != nullptr) increment_counter(desired_ptr);
  return true;
} else return false;
```
(The engine's `retire` already runs `perform_deferred_decrements`, whose
re-run immediately after is a no-op because a flush leaves the queue
below the threshold.) -/
def compare_and_swap_copy (hash : Nat → Nat) (B delay id : Nat) (s : Sys)
    (expectedv desiredv : Nat) : Bool × Sys :=
  if s.cell = expectedv then
    let s1 : Sys := { s with cell := desiredv }
    let s2 : Sys :=
      if expectedv ≠ 0 then
        let r := retire hash B delay expectedv id (s1.eng, s1.heap)
        { s1 with eng := r.1, heap := r.2 }
      else s1
    let s3 : Sys :=
      if desiredv ≠ 0 then { s2 with heap := increment_counter desiredv s2.heap }
      else s2
    (true, s3)
  else (false, s)

/-- `atomic_rc_ptr::compare_and_swap(const rc_ptr&, rc_ptr&&)` (move
form): on success `desired.release()` transfers the caller's count to
the cell with no atomic operation on the reference count.  The last
component is the `desired` handle's pointer after the call. -/
def compare_and_swap_move (hash : Nat → Nat) (B delay id : Nat) (s : Sys)
    (expectedv desiredv : Nat) : Bool × Sys × Nat :=
  if s.cell = expectedv then
    let s1 : Sys := { s with cell := desiredv }
    let s2 : Sys :=
      if expectedv ≠ 0 then
        let r := retire hash B delay expectedv id (s1.eng, s1.heap)
        { s1 with eng := r.1, heap := r.2 }
      else s1
    (true, s2, 0)
  else (false, s, desiredv)

/-- The number of pending deferred decrements of box `p` across all
workers' queues. -/
def pendCount (p : Nat) (e : Engine) : Nat :=
  (e.deferred_destructs.map (fun q => q.count p)).sum

/-- The logical reference count of box `p`: the stored count minus the
decrements already owed to the engine's queues. -/
def logicalRefs (p : Nat) (s : Sys) : Int :=
  (s.heap.refs p : Int) - (pendCount p s.eng : Int)

/-! ## Engine destruction (`~acquire_retire`, canonical definition)

```
in_progress.assign(in_progress.size(), true);
while (std::any_of(deferred_destructs.begin(), deferred_destructs.end(),
                   [](const auto& v) { return !v.empty(); })) {
  std::vector<T> destructs;
  for (auto& v : deferred_destructs) {
    destructs.insert(destructs.end(), v.begin(), v.end());
    v.clear();
  }
  for (auto x : destructs) { Deleter{}(x); }
}
```
Announcements are never consulted.  Because the `Deleter` runs user
destructors that may themselves retire further handles onto any queue,
it is modelled as an arbitrary function on the queues and the heap; the
third component threads the log of handles the `Deleter` was applied
to. -/
def drainAux (del : Nat → List (List Nat) × Heap → List (List Nat) × Heap) :
    Nat → List (List Nat) × Heap × List Nat → Option (List (List Nat) × Heap × List Nat)
  | 0, _ => none
  | fuel + 1, (qs, h, log) =>
      if qs.all (fun v => v.isEmpty) then some (qs, h, log)
      else
        let destructs := qs.flatten
        let cleared := qs.map (fun _ => [])
        let s' := destructs.foldl (fun acc x => del x acc) (cleared, h)
        drainAux del fuel (s'.1, s'.2, log ++ destructs)

/-- `~acquire_retire`: set every re-entrancy flag and drain. -/
def acquire_retire_destruct (del : Nat → List (List Nat) × Heap → List (List Nat) × Heap)
    (fuel : Nat) (e : Engine) (h : Heap) :
    Option (List (List Nat) × Heap × List Nat) :=
  let _e1 := { e with in_progress := e.in_progress.map (fun _ => true) }
  drainAux del fuel (e.deferred_destructs, h, [])

/-! # Theorems -/

/-! ## Heap lemmas -/

theorem U64_pos : 0 < U64 := by decide

theorem upd_same (f : Nat → Nat) (a b : Nat) : upd f a b a = b := by
  simp [upd]

theorem upd_other (f : Nat → Nat) (a b x : Nat) (h : x ≠ a) :
    upd f a b x = f x := by
  simp [upd, h]

theorem increment_counter_refs_self (p : Nat) (h : Heap)
    (hlt : h.refs p + 1 < U64) :
    (increment_counter p h).refs p = h.refs p + 1 := by
  simp [increment_counter, upd, Nat.mod_eq_of_lt hlt]

theorem increment_counter_refs_other (p q : Nat) (h : Heap) (hq : q ≠ p) :
    (increment_counter p h).refs q = h.refs q := by
  simp [increment_counter, upd, hq]

theorem increment_counter_freed (p : Nat) (h : Heap) :
    (increment_counter p h).freed = h.freed := rfl

theorem decrement_counter_refs_self (p : Nat) (h : Heap)
    (hpos : 0 < h.refs p) (hlt : h.refs p < U64) :
    (decrement_counter p h).refs p = h.refs p - 1 := by
  have h1 : h.refs p + (U64 - 1) = (h.refs p - 1) + U64 := by
    have := U64_pos; omega
  have h2 : h.refs p - 1 < U64 := by omega
  simp [decrement_counter, upd, h1, Nat.add_mod_right, Nat.mod_eq_of_lt h2]

theorem decrement_counter_refs_other (p q : Nat) (h : Heap) (hq : q ≠ p) :
    (decrement_counter p h).refs q = h.refs q := by
  simp [decrement_counter, upd, hq]

theorem decrement_counter_freed (p : Nat) (h : Heap) :
    (decrement_counter p h).freed = if h.refs p = 1 then p :: h.freed else h.freed := rfl

theorem decrement_counter_wf (p : Nat) (h : Heap) (hw : HeapWf h) :
    HeapWf (decrement_counter p h) := by
  intro q
  by_cases hq : q = p
  · subst hq
    simpa [decrement_counter, upd] using Nat.mod_lt _ U64_pos
  · simpa [decrement_counter, upd, hq] using hw q

theorem increment_counter_wf (p : Nat) (h : Heap) (hw : HeapWf h) :
    HeapWf (increment_counter p h) := by
  intro q
  by_cases hq : q = p
  · subst hq
    simpa [increment_counter, upd] using Nat.mod_lt _ U64_pos
  · simpa [increment_counter, upd, hq] using hw q

theorem decrement_counter_freed_mono (p x : Nat) (h : Heap)
    (hx : x ∈ h.freed) : x ∈ (decrement_counter p h).freed := by
  simp only [decrement_counter]
  split <;> simp [hx]

/-! ## C10 — null-handle observers of `rc_ptr` -/

/-- C10: for a null Owning Handle every observer is total and safe:
`get()` and `operator->` return null, conversion to `bool` yields
`false`, `use_count()` returns `0`, and two null handles compare equal;
only `operator*` dereferences without a null check (its value on a null
handle is undefined, modelled as `none`). -/
theorem rc_ptr_null_observers (objAddr mem : Nat → Nat) (h : Heap) :
    rc_ptr_get 0 objAddr = 0 ∧
    rc_ptr_arrow 0 objAddr = 0 ∧
    rc_ptr_toBool 0 = false ∧
    rc_ptr_use_count 0 h = 0 ∧
    rc_ptr_eq 0 0 objAddr = true ∧
    rc_ptr_star 0 objAddr mem = none := by
  refine ⟨rfl, rfl, rfl, rfl, ?_, rfl⟩
  simp [rc_ptr_eq, rc_ptr_get]

/-! ## C7 — snapshot handle destruction -/

/-- C7: destroying a non-null Snapshot Handle whose announcement slot
still contains this exact box pointer clears the slot and changes no
reference count; if the slot no longer contains that pointer, the box's
count is instead decremented by one, freeing the box if the previous
count was one. -/
theorem snapshot_clear_spec (ptr slotVal : Nat) (h : Heap)
    (hp : ptr ≠ 0) (hlt : h.refs ptr < U64) :
    (slotVal = ptr → snapshot_clear ptr slotVal h = (0, h)) ∧
    (slotVal ≠ ptr → 0 < h.refs ptr →
      (snapshot_clear ptr slotVal h).1 = slotVal ∧
      (snapshot_clear ptr slotVal h).2.refs ptr = h.refs ptr - 1 ∧
      (∀ q, q ≠ ptr → (snapshot_clear ptr slotVal h).2.refs q = h.refs q) ∧
      (snapshot_clear ptr slotVal h).2.freed =
        (if h.refs ptr = 1 then ptr :: h.freed else h.freed)) := by
  constructor
  · intro hs
    simp [snapshot_clear, hp, hs]
  · intro hs hpos
    refine ⟨?_, ?_, ?_, ?_⟩
    · simp [snapshot_clear, hp, hs]
    · simp only [snapshot_clear, hp, if_true, hs, if_false, ne_eq,
        not_false_eq_true, if_neg]
      exact decrement_counter_refs_self ptr h hpos hlt
    · intro q hq
      simp only [snapshot_clear, hp, hs, ne_eq, not_false_eq_true, if_neg, if_true]
      exact decrement_counter_refs_other ptr q h hq
    · simp [snapshot_clear, hp, hs, decrement_counter_freed]

/-- Witness for C7 at a concrete input: box `1` with count `2`, slot
kicked to `5` — the slot keeps its value, box 1's count drops to 1, box
7 is untouched, nothing is freed. -/
theorem snapshot_clear_spec_witness :
    (snapshot_clear 1 5 ⟨fun _ => 2, []⟩).1 = 5 ∧
    (snapshot_clear 1 5 ⟨fun _ => 2, []⟩).2.refs 1 = (⟨fun _ => 2, []⟩ : Heap).refs 1 - 1 ∧
    (snapshot_clear 1 5 ⟨fun _ => 2, []⟩).2.refs 7 = (⟨fun _ => 2, []⟩ : Heap).refs 7 ∧
    (snapshot_clear 1 5 ⟨fun _ => 2, []⟩).2.freed =
      (if (⟨fun _ => 2, []⟩ : Heap).refs 1 = 1 then 1 :: ([] : List Nat) else []) ∧
    snapshot_clear 1 1 ⟨fun _ => 2, []⟩ = (0, ⟨fun _ => 2, []⟩) := by
  obtain ⟨-, h2⟩ := snapshot_clear_spec 1 5 ⟨fun _ => 2, []⟩ (by decide) (by decide)
  obtain ⟨g1, g2, g3, g4⟩ := h2 (by decide) (by decide)
  obtain ⟨k1, -⟩ := snapshot_clear_spec 1 1 ⟨fun _ => 2, []⟩ (by decide) (by decide)
  exact ⟨g1, g2, g3 7 (by decide), g4, k1 rfl⟩

/-! ## C9 — `atomic_rc_ptr::swap` -/

theorem casWeakLoop_spec (spur : Nat → Bool) :
    ∀ fuel cell expectedv desired_ptr out,
      casWeakLoop spur fuel cell expectedv desired_ptr = some out →
      out.1 = desired_ptr ∧ out.2 = cell := by
  intro fuel
  induction fuel with
  | zero => intro cell e d out hout; simp [casWeakLoop] at hout
  | succ f ih =>
      intro cell e d out hout
      simp only [casWeakLoop] at hout
      split at hout
      · rename_i hc
        cases hout
        exact ⟨rfl, hc.1.symm⟩
      · exact ih cell cell d out hout

/-- C9: under the claim's precondition (no concurrent access to the
handle), `swap` exchanges the cell's stored box pointer with the
handle's box pointer and modifies neither box's reference count: the
handle ends up holding the cell's previous pointer, the cell holds the
handle's previous pointer, and the heap is untouched. -/
theorem atomic_swap_spec (spur : Nat → Bool) (fuel cell d : Nat) (h : Heap) :
    ∀ out, atomic_swap spur fuel cell d h = some out →
      out.1 = d ∧ out.2.1 = cell ∧ out.2.2 = h := by
  intro out hout
  simp only [atomic_swap, Option.map_eq_some'] at hout
  obtain ⟨r, hr, hout⟩ := hout
  obtain ⟨h1, h2⟩ := casWeakLoop_spec spur fuel cell cell d r hr
  subst hout
  exact ⟨h1, h2, rfl⟩

/-- Witness for C9 at a concrete input: a cell holding box `5`, a handle
holding box `7`, one loop iteration with no spurious failure. -/
theorem atomic_swap_spec_witness :
    (atomic_swap (fun _ => false) 1 5 7 ⟨fun _ => 3, []⟩).map (fun out => out.1) = some 7 ∧
    ((7, 5, (⟨fun _ => 3, []⟩ : Heap)).1 = 7 ∧
      (7, 5, (⟨fun _ => 3, []⟩ : Heap)).2.1 = 5 ∧
      (7, 5, (⟨fun _ => 3, []⟩ : Heap)).2.2 = ⟨fun _ => 3, []⟩) :=
  ⟨rfl, atomic_swap_spec (fun _ => false) 1 5 7 ⟨fun _ => 3, []⟩
    (7, 5, ⟨fun _ => 3, []⟩) rfl⟩

/-! ## C1 — the copy form of `compare_and_swap` does not reserve `desired` -/

/-- C1 (code bug): on a successful copy-form `compare_and_swap` with a
non-null desired pointer (cell = expected = box 1, desired = box 2), the
generated effect trace contains no store at all to the worker's primary
announcement slot, so the slot (initially clear) does not hold the
desired pointer across the CAS and the subsequent increment — contrary
to the claim (and to the source's own comment "We need to protect
desired"). -/
theorem cas_copy_reservation_missing :
    cas_copy_events 1 1 2 =
      [CasEv.casStep 1 2 true, CasEv.retireCall 1, CasEv.performCall, CasEv.addRef 2] ∧
    (∀ ev ∈ cas_copy_events 1 1 2, isAnnounceStore ev = false) ∧
    ¬ reservedAcrossCas 0 2 (cas_copy_events 1 1 2) := by
  refine ⟨by decide, by decide, by decide⟩

/-! ## C4 — `atomic_rc_ptr::load` via the announcement-stabilized read -/

theorem acquireAux_spec (reads : Nat → Nat) :
    ∀ fuel i slot0 out, acquireAux reads fuel i slot0 = some out →
      (∃ j, reads (2 * j) = out.1 ∧ reads (2 * j + 1) = out.1) ∧ out.2 = out.1 := by
  intro fuel
  induction fuel with
  | zero => intro i slot0 out hout; simp [acquireAux] at hout
  | succ f ih =>
      intro i slot0 out hout
      simp only [acquireAux] at hout
      split at hout
      · rename_i hre
        cases hout
        exact ⟨⟨i, rfl, hre⟩, rfl⟩
      · exact ih (i + 1) (reads (2 * i)) out hout

/-- C4: every completed `load()` follows the announcement-stabilized
protocol — the value `p` it returns was read from the cell, published in
the worker's primary announcement slot, and confirmed by a re-read equal
to the published value; the returned handle carries `refs` incremented
by exactly one (when non-null), no other box's count changes, nothing is
freed, and the primary announcement slot is cleared before `load`
returns. -/
theorem load_model_spec (reads : Nat → Nat) (fuel slot0 : Nat) (h : Heap) :
    ∀ p h' slotF, load_model reads fuel slot0 h = some (p, h', slotF) →
      (∃ j, reads (2 * j) = p ∧ reads (2 * j + 1) = p) ∧
      (∃ sl, acquireAux reads fuel 0 slot0 = some (p, sl) ∧ sl = p) ∧
      slotF = 0 ∧
      (p ≠ 0 → h.refs p + 1 < U64 → h'.refs p = h.refs p + 1) ∧
      (∀ q, q ≠ p → h'.refs q = h.refs q) ∧
      h'.freed = h.freed := by
  intro p h' slotF hout
  simp only [load_model] at hout
  cases hacq : acquireAux reads fuel 0 slot0 with
  | none => rw [hacq] at hout; cases hout
  | some r =>
      obtain ⟨rp, rs⟩ := r
      rw [hacq] at hout
      simp only [Option.some.injEq, Prod.mk.injEq] at hout
      obtain ⟨hp1, hp2, hp3⟩ := hout
      subst hp1; subst hp2; subst hp3
      obtain ⟨hst, hsl⟩ := acquireAux_spec reads fuel 0 slot0 (rp, rs) hacq
      simp only at hst hsl
      refine ⟨hst, ⟨rs, rfl, hsl⟩, rfl, ?_, ?_, ?_⟩
      · intro hp hov
        simp only [ne_eq, hp, not_false_eq_true, if_true]
        exact increment_counter_refs_self rp h hov
      · intro q hq
        by_cases hp : rp = 0
        · simp [hp]
        · simp only [ne_eq, hp, not_false_eq_true, if_true]
          exact increment_counter_refs_other rp q h hq
      · by_cases hp : rp = 0
        · simp [hp]
        · simp [hp, increment_counter_freed]

/-- Witness for C4: a cell that always reads box `3`, one iteration of
the acquire loop. -/
theorem load_model_spec_witness :
    (∃ j, (fun _ => 3 : Nat → Nat) (2 * j) = 3 ∧ (fun _ => 3 : Nat → Nat) (2 * j + 1) = 3) ∧
    (∃ sl, acquireAux (fun _ => 3) 1 0 0 = some (3, sl) ∧ sl = 3) ∧
    (0 : Nat) = 0 ∧
    (increment_counter 3 ⟨fun _ => 1, []⟩).refs 3 = (⟨fun _ => 1, []⟩ : Heap).refs 3 + 1 ∧
    (increment_counter 3 ⟨fun _ => 1, []⟩).refs 7 = (⟨fun _ => 1, []⟩ : Heap).refs 7 ∧
    (increment_counter 3 ⟨fun _ => 1, []⟩).freed = (⟨fun _ => 1, []⟩ : Heap).freed := by
  obtain ⟨h1, h2, h3, h4, h5, h6⟩ :=
    load_model_spec (fun _ => 3) 1 0 ⟨fun _ => 1, []⟩ 3
      (increment_counter 3 ⟨fun _ => 1, []⟩) 0 (by rfl)
  exact ⟨h1, h2, h3, h4 (by decide) (by show (1 : Nat) + 1 < U64; decide),
    h5 7 (by decide), h6⟩

/-! ## C6 — destruction of the engine drains every queue -/

theorem drainAux_spec (del : Nat → List (List Nat) × Heap → List (List Nat) × Heap) :
    ∀ fuel qs h log0 out, drainAux del fuel (qs, h, log0) = some out →
      (∀ v ∈ out.1, v = ([] : List Nat)) ∧
      ∃ rest, out.2.2 = log0 ++ qs.flatten ++ rest := by
  intro fuel
  induction fuel with
  | zero => intro qs h log0 out hout; simp [drainAux] at hout
  | succ f ih =>
      intro qs h log0 out hout
      simp only [drainAux] at hout
      split at hout
      · rename_i hemp
        cases hout
        have hflat : qs.flatten = [] := by
          simp only [List.all_eq_true, List.isEmpty_iff] at hemp
          simp [List.flatten_eq_nil_iff]
          intro l hl
          exact hemp l hl
        constructor
        · intro v hv
          simp only [List.all_eq_true, List.isEmpty_iff] at hemp
          exact hemp v hv
        · exact ⟨[], by simp [hflat]⟩
      · obtain ⟨h1, rest, h2⟩ := ih _ _ _ out hout
        exact ⟨h1, _, by rw [h2, List.append_assoc]⟩

/-- C6: whenever the engine destructor's drain loop completes, every
worker's deferred queue is empty, and the `Deleter` (which ignores
announcements) was applied to every entry initially pending in any
queue — the application log starts with exactly the initial queue
contents; entries enqueued by destructors running during the drain are
also drained (they appear in the log's remainder and the final queues
are still empty). -/
theorem acquire_retire_destruct_spec
    (del : Nat → List (List Nat) × Heap → List (List Nat) × Heap)
    (fuel : Nat) (e : Engine) (h : Heap) :
    ∀ out, acquire_retire_destruct del fuel e h = some out →
      (∀ v ∈ out.1, v = ([] : List Nat)) ∧
      ∃ rest, out.2.2 = e.deferred_destructs.flatten ++ rest := by
  intro out hout
  obtain ⟨h1, rest, h2⟩ := drainAux_spec del fuel e.deferred_destructs h [] out hout
  exact ⟨h1, rest, by simpa using h2⟩

/-- Witness for C6: two workers with queues `[5]` and `[6]`; deleting
box `5` re-enqueues box `7` on worker 0's queue (a destructor that
retires), so the drain loops a second time and also applies the deleter
to `7`. -/
theorem acquire_retire_destruct_spec_witness :
    (∀ v ∈ (acquire_retire_destruct
        (fun x s => if x = 5 then (s.1.set 0 (s.1.getD 0 [] ++ [7]), s.2) else s)
        3 ⟨[], [false, false], [[5], [6]]⟩ ⟨fun _ => 9, []⟩).getD ([], ⟨fun _ => 9, []⟩, []) |>.1,
      v = ([] : List Nat)) ∧
    ∃ rest, ((acquire_retire_destruct
        (fun x s => if x = 5 then (s.1.set 0 (s.1.getD 0 [] ++ [7]), s.2) else s)
        3 ⟨[], [false, false], [[5], [6]]⟩ ⟨fun _ => 9, []⟩).getD ([], ⟨fun _ => 9, []⟩, []) |>.2.2) =
      ([[5], [6]] : List (List Nat)).flatten ++ rest := by
  have hres := acquire_retire_destruct_spec
      (fun x s => if x = 5 then (s.1.set 0 (s.1.getD 0 [] ++ [7]), s.2) else s)
      3 ⟨[], [false, false], [[5], [6]]⟩ ⟨fun _ => 9, []⟩
      ([[], []], ⟨fun _ => 9, []⟩, [5, 6, 7]) (by rfl)
  exact hres

/-! ## C8 — snapshot slot selection (`get_free_slot`) -/

/-- C8: when snapshot acquisition needs a slot, `get_free_slot` returns
a snapshot slot of the calling worker currently holding null if one
exists (leaving all state unchanged); if all `K` slots are occupied it
selects the slot at the worker's round-robin index `last_free`,
increments the kicked box's count by one, reuses that slot, and
advances the round-robin index by one modulo `K`. -/
theorem get_free_slot_spec (ls : LocalSlot) (h : Heap)
    (_hK : 0 < ls.snapshot_announcements.length)
    (hlf : ls.last_free < ls.snapshot_announcements.length)
    (hov : h.refs (ls.snapshot_announcements.getD ls.last_free 0) + 1 < U64) :
    ((∃ i < ls.snapshot_announcements.length, ls.snapshot_announcements.getD i 0 = 0) →
      (get_free_slot ls h).1 < ls.snapshot_announcements.length ∧
      ls.snapshot_announcements.getD (get_free_slot ls h).1 0 = 0 ∧
      (get_free_slot ls h).2.1 = ls ∧
      (get_free_slot ls h).2.2 = h) ∧
    ((∀ i < ls.snapshot_announcements.length, ls.snapshot_announcements.getD i 0 ≠ 0) →
      (get_free_slot ls h).1 = ls.last_free ∧
      (get_free_slot ls h).2.1.snapshot_announcements = ls.snapshot_announcements ∧
      (get_free_slot ls h).2.1.announcement = ls.announcement ∧
      (get_free_slot ls h).2.1.last_free =
        (ls.last_free + 1) % ls.snapshot_announcements.length ∧
      (get_free_slot ls h).2.2.refs (ls.snapshot_announcements.getD ls.last_free 0) =
        h.refs (ls.snapshot_announcements.getD ls.last_free 0) + 1 ∧
      (∀ q, q ≠ ls.snapshot_announcements.getD ls.last_free 0 →
        (get_free_slot ls h).2.2.refs q = h.refs q) ∧
      (get_free_slot ls h).2.2.freed = h.freed) := by
  constructor
  · intro hex
    obtain ⟨i, hi, hz⟩ := hex
    cases hfind : (List.range ls.snapshot_announcements.length).find?
        (fun j => ls.snapshot_announcements.getD j 0 == 0) with
    | none =>
        exfalso
        have hcon := List.find?_eq_none.mp hfind i (List.mem_range.mpr hi)
        simp only [beq_iff_eq] at hcon
        exact hcon hz
    | some j =>
        have hjmem : j < ls.snapshot_announcements.length :=
          List.mem_range.mp (List.mem_of_find?_eq_some hfind)
        have hjz : ls.snapshot_announcements.getD j 0 = 0 := by
          have hp := List.find?_some hfind
          simpa only [beq_iff_eq] using hp
        refine ⟨?_, ?_, ?_, ?_⟩ <;> simp only [get_free_slot, hfind]
        · exact hjmem
        · exact hjz
  · intro hall
    have hfind : (List.range ls.snapshot_announcements.length).find?
        (fun j => ls.snapshot_announcements.getD j 0 == 0) = none := by
      apply List.find?_eq_none.mpr
      intro j hj
      simp only [beq_iff_eq]
      exact hall j (List.mem_range.mp hj)
    have hmod : (if ls.last_free + 1 = ls.snapshot_announcements.length then 0
        else ls.last_free + 1) = (ls.last_free + 1) % ls.snapshot_announcements.length := by
      by_cases he : ls.last_free + 1 = ls.snapshot_announcements.length
      · simp [he, Nat.mod_self]
      · have hlt : ls.last_free + 1 < ls.snapshot_announcements.length := by omega
        simp [he, Nat.mod_eq_of_lt hlt]
    refine ⟨?_, ?_, ?_, ?_, ?_, ?_, ?_⟩ <;> simp only [get_free_slot, hfind]
    · exact hmod
    · exact increment_counter_refs_self _ h hov
    · intro q hq
      exact increment_counter_refs_other _ q h hq
    · exact increment_counter_freed _ h

/-- Witness for C8: a worker with `K = 3` snapshot slots all occupied
(boxes 4, 5, 6), `last_free = 2`: slot 2 is kicked (box 6 gains a
count) and the round-robin index wraps to 0.  Also the free-slot case on
a worker whose slot 1 is null. -/
theorem get_free_slot_spec_witness :
    (get_free_slot ⟨9, 0, [4, 0, 6]⟩ ⟨fun _ => 2, []⟩).1 < ([4, 0, 6] : List Nat).length ∧
    ([4, 0, 6] : List Nat).getD (get_free_slot ⟨9, 0, [4, 0, 6]⟩ ⟨fun _ => 2, []⟩).1 0 = 0 ∧
    (get_free_slot ⟨9, 0, [4, 0, 6]⟩ ⟨fun _ => 2, []⟩).2.1 = ⟨9, 0, [4, 0, 6]⟩ ∧
    (get_free_slot ⟨9, 0, [4, 0, 6]⟩ ⟨fun _ => 2, []⟩).2.2 = ⟨fun _ => 2, []⟩ ∧
    (get_free_slot ⟨9, 2, [4, 5, 6]⟩ ⟨fun _ => 2, []⟩).1 = 2 ∧
    (get_free_slot ⟨9, 2, [4, 5, 6]⟩ ⟨fun _ => 2, []⟩).2.1.snapshot_announcements = [4, 5, 6] ∧
    (get_free_slot ⟨9, 2, [4, 5, 6]⟩ ⟨fun _ => 2, []⟩).2.1.announcement = 9 ∧
    (get_free_slot ⟨9, 2, [4, 5, 6]⟩ ⟨fun _ => 2, []⟩).2.1.last_free = (2 + 1) % 3 ∧
    (get_free_slot ⟨9, 2, [4, 5, 6]⟩ ⟨fun _ => 2, []⟩).2.2.refs 6 =
      (⟨fun _ => 2, []⟩ : Heap).refs 6 + 1 ∧
    (get_free_slot ⟨9, 2, [4, 5, 6]⟩ ⟨fun _ => 2, []⟩).2.2.refs 9 =
      (⟨fun _ => 2, []⟩ : Heap).refs 9 ∧
    (get_free_slot ⟨9, 2, [4, 5, 6]⟩ ⟨fun _ => 2, []⟩).2.2.freed = [] := by
  obtain ⟨a1, a2, a3, a4⟩ :=
    (get_free_slot_spec ⟨9, 0, [4, 0, 6]⟩ ⟨fun _ => 2, []⟩ (by decide) (by decide)
      (by show (2 : Nat) + 1 < U64; decide)).1 ⟨1, by decide, by decide⟩
  obtain ⟨b1, b2, b3, b4, b5, b6, b7⟩ :=
    (get_free_slot_spec ⟨9, 2, [4, 5, 6]⟩ ⟨fun _ => 2, []⟩ (by decide) (by decide)
      (by show (2 : Nat) + 1 < U64; decide)).2 (by decide)
  exact ⟨a1, a2, a3, a4, b1, b2, b3, b4, b5, b6 9 (by decide), b7⟩

/-! ## The tiny table: chain-walk lemmas -/

theorem chainIdxs_zero_fuel (entries : List TTEntry) (id : Nat) :
    chainIdxs entries 0 id = [] := rfl

theorem chainIdxs_id_zero (entries : List TTEntry) (fuel : Nat) :
    chainIdxs entries fuel 0 = [] := by
  cases fuel <;> simp [chainIdxs]

theorem chainIdxs_succ (entries : List TTEntry) (fuel n : Nat) :
    chainIdxs entries (fuel + 1) (n + 1) =
      (match entries.get? n with
       | none => []
       | some e => n :: chainIdxs entries fuel e.next) := by
  simp [chainIdxs]

theorem tt_findAux_zero_fuel (entries : List TTEntry) (p id : Nat) :
    tt_findAux entries p 0 id = none := rfl

theorem tt_findAux_id_zero (entries : List TTEntry) (p fuel : Nat) :
    tt_findAux entries p fuel 0 = none := by
  cases fuel <;> simp [tt_findAux]

theorem tt_findAux_succ (entries : List TTEntry) (p fuel n : Nat) :
    tt_findAux entries p (fuel + 1) (n + 1) =
      (match entries.get? n with
       | none => none
       | some e => if e.value = p then some n else tt_findAux entries p fuel e.next) := by
  simp [tt_findAux]

theorem valueAt_eq {entries : List TTEntry} {n : Nat} {e : TTEntry}
    (hg : entries.get? n = some e) : valueAt entries n = e.value := by
  unfold valueAt
  rw [hg]
  rfl

theorem chainIdxs_mem_lt (entries : List TTEntry) :
    ∀ fuel id j, j ∈ chainIdxs entries fuel id → j < entries.length := by
  intro fuel
  induction fuel with
  | zero => intro id j hj; simp [chainIdxs_zero_fuel] at hj
  | succ f ih =>
      intro id j hj
      cases id with
      | zero => simp [chainIdxs_id_zero] at hj
      | succ n =>
          rw [chainIdxs_succ] at hj
          cases hg : entries.get? n with
          | none => rw [hg] at hj; simp at hj
          | some e =>
              rw [hg] at hj
              simp only [List.mem_cons] at hj
              cases hj with
              | inl hj =>
                  subst hj
                  exact List.get?_eq_some.mp hg |>.1
              | inr hj => exact ih e.next j hj

theorem chainIdxs_fuel_congr (entries : List TTEntry)
    (hn : ∀ i e, entries.get? i = some e → e.next ≤ i) :
    ∀ id fuel fuel', id ≤ fuel → id ≤ fuel' →
      chainIdxs entries fuel id = chainIdxs entries fuel' id := by
  intro id
  induction id using Nat.strong_induction_on with
  | _ id IH =>
      intro fuel fuel' h1 h2
      cases id with
      | zero => simp [chainIdxs_id_zero]
      | succ n =>
          obtain ⟨f, rfl⟩ : ∃ f, fuel = f + 1 := ⟨fuel - 1, by omega⟩
          obtain ⟨f', rfl⟩ : ∃ f', fuel' = f' + 1 := ⟨fuel' - 1, by omega⟩
          rw [chainIdxs_succ, chainIdxs_succ]
          cases hg : entries.get? n with
          | none => rfl
          | some e =>
              have hnext := hn n e hg
              dsimp only
              rw [IH e.next (by omega) f f' (by omega) (by omega)]

theorem tt_findAux_eq_find? (entries : List TTEntry) (p : Nat) :
    ∀ fuel id, tt_findAux entries p fuel id =
      (chainIdxs entries fuel id).find? (fun j => valueAt entries j == p) := by
  intro fuel
  induction fuel with
  | zero => intro id; simp [tt_findAux_zero_fuel, chainIdxs_zero_fuel]
  | succ f ih =>
      intro id
      cases id with
      | zero => simp [tt_findAux_id_zero, chainIdxs_id_zero]
      | succ n =>
          rw [tt_findAux_succ, chainIdxs_succ]
          cases hg : entries.get? n with
          | none => rfl
          | some e =>
              dsimp only
              have hv : valueAt entries n = e.value := valueAt_eq hg
              by_cases hve : e.value = p <;>
                simp [List.find?_cons, hv, hve, ih e.next]

/-- Entries reachable by `find` have the sought value (on any table). -/
theorem tt_find_some (hash : Nat → Nat) (B : Nat) (t : TinyTable) (p j : Nat)
    (hj : tt_find hash B t p = some j) :
    j < t.entries.length ∧ valueAt t.entries j = p := by
  rw [tt_find, tt_findAux_eq_find?] at hj
  have hmem := List.mem_of_find?_eq_some hj
  have hpred := List.find?_some hj
  simp only [beq_iff_eq] at hpred
  exact ⟨chainIdxs_mem_lt t.entries _ _ j hmem, hpred⟩

/-- A value is in the table: `p ∈ ttVals t` iff some entry stores it. -/
theorem mem_ttVals (t : TinyTable) (p : Nat) :
    p ∈ ttVals t ↔ ∃ i e, t.entries.get? i = some e ∧ e.value = p := by
  constructor
  · intro hp
    obtain ⟨e, he, hv⟩ := List.mem_map.mp hp
    obtain ⟨i, hi⟩ := List.mem_iff_get?.mp he
    exact ⟨i, e, hi, hv⟩
  · intro ⟨i, e, hi, hv⟩
    exact List.mem_map.mpr ⟨e, List.mem_iff_get?.mpr ⟨i, hi⟩, hv⟩

/-- On a well-formed table, `find` fails exactly when no entry stores
the sought (non-null) value. -/
theorem tt_find_eq_none_iff (hash : Nat → Nat) (B : Nat) (t : TinyTable)
    (hwf : TTWf hash B t) (p : Nat) (hp : p ≠ 0) :
    tt_find hash B t p = none ↔ (ttVals t).count p = 0 := by
  constructor
  · intro hnone
    rw [List.count_eq_zero]
    intro hmem
    obtain ⟨i, e, hi, hv⟩ := (mem_ttVals t p).mp hmem
    have hplace := hwf.place i e hi (by rw [hv]; exact hp)
    rw [hv] at hplace
    rw [tt_find, tt_findAux_eq_find?] at hnone
    have hnotp := List.find?_eq_none.mp hnone i hplace
    simp only [beq_iff_eq] at hnotp
    exact hnotp ((valueAt_eq hi).trans hv)
  · intro hcnt
    cases hfind : tt_find hash B t p with
    | none => rfl
    | some j =>
        exfalso
        obtain ⟨hj, hv⟩ := tt_find_some hash B t p j hfind
        obtain ⟨e, he⟩ : ∃ e, t.entries.get? j = some e :=
          ⟨t.entries.get ⟨j, hj⟩, List.get?_eq_get hj⟩
        have hmem : p ∈ ttVals t := (mem_ttVals t p).mpr
          ⟨j, e, he, by rw [← valueAt_eq he]; exact hv⟩
        rw [List.count_eq_zero] at hcnt
        exact hcnt hmem

/-! ## The tiny table: mutation lemmas -/

theorem chainIdxs_ext (l1 l2 : List TTEntry)
    (hnext : ∀ k, (l1.get? k).map TTEntry.next = (l2.get? k).map TTEntry.next) :
    ∀ fuel id, chainIdxs l1 fuel id = chainIdxs l2 fuel id := by
  intro fuel
  induction fuel with
  | zero => intro id; rfl
  | succ f ih =>
      intro id
      cases id with
      | zero => simp [chainIdxs_id_zero]
      | succ n =>
          rw [chainIdxs_succ, chainIdxs_succ]
          have hk := hnext n
          cases hg1 : l1.get? n with
          | none =>
              rw [hg1] at hk
              cases hg2 : l2.get? n with
              | none => rfl
              | some e2 => rw [hg2] at hk; simp at hk
          | some e1 =>
              rw [hg1] at hk
              cases hg2 : l2.get? n with
              | none => rw [hg2] at hk; simp at hk
              | some e2 =>
                  rw [hg2] at hk
                  simp only [Option.map_some', Option.some.injEq] at hk
                  dsimp only
                  rw [ih e1.next, hk]

theorem chainIdxs_append (l : List TTEntry) (a : TTEntry)
    (hn : ∀ i e, l.get? i = some e → e.next ≤ i) :
    ∀ fuel id, id ≤ l.length → chainIdxs (l ++ [a]) fuel id = chainIdxs l fuel id := by
  intro fuel
  induction fuel with
  | zero => intro id _; rfl
  | succ f ih =>
      intro id hid
      cases id with
      | zero => simp [chainIdxs_id_zero]
      | succ n =>
          rw [chainIdxs_succ, chainIdxs_succ]
          have hlt : n < l.length := by omega
          rw [List.get?_append hlt]
          cases hg : l.get? n with
          | none => rfl
          | some e =>
              dsimp only
              rw [ih e.next (le_trans (hn n e hg) (by omega))]

theorem count_set_of_get? :
    ∀ (l : List Nat) (i av : Nat), l.get? i = some av →
      ∀ c b, (l.set i c).count b + (if av = b then 1 else 0) =
        l.count b + (if c = b then 1 else 0) := by
  intro l
  induction l with
  | nil => intro i av h; simp at h
  | cons x xs ih =>
      intro i av h c b
      cases i with
      | zero =>
          simp only [List.get?] at h
          injection h with h
          simp only [List.set, List.count_cons, beq_iff_eq, ← h]
          omega
      | succ n =>
          simp only [List.get?] at h
          have hrec := ih n av h c b
          simp only [List.set, List.count_cons, beq_iff_eq]
          omega

theorem ttVals_get? (t : TinyTable) (i : Nat) (e : TTEntry)
    (hi : t.entries.get? i = some e) : (ttVals t).get? i = some e.value := by
  unfold ttVals
  rw [List.get?_map, hi]
  rfl

theorem ttVals_setNull (t : TinyTable) (i : Nat) (e : TTEntry)
    (hi : t.entries.get? i = some e) :
    ttVals (tt_setNull t i) = (ttVals t).set i 0 := by
  unfold tt_setNull
  rw [hi]
  unfold ttVals
  simp [List.map_set]

theorem count_zero_filter_ne (l : List Nat) :
    (l.filter (fun v => v ≠ 0)).count 0 = 0 := by
  rw [List.count_eq_zero]
  intro hmem
  have := List.of_mem_filter hmem
  simp at this

theorem count_contents (t : TinyTable) (q : Nat) (hq : q ≠ 0) :
    Multiset.count q (ttContents t) = (ttVals t).count q := by
  unfold ttContents
  rw [Multiset.coe_count]
  exact List.count_filter (by simpa using hq)

theorem ttContents_setNull (t : TinyTable) (i : Nat) (e : TTEntry)
    (hi : t.entries.get? i = some e) (hv : e.value ≠ 0) :
    ttContents (tt_setNull t i) = (ttContents t).erase e.value := by
  apply Multiset.ext.mpr
  intro q
  by_cases hq : q = 0
  · subst hq
    rw [Multiset.count_erase_of_ne (Ne.symm hv)]
    unfold ttContents
    rw [Multiset.coe_count, Multiset.coe_count, count_zero_filter_ne, count_zero_filter_ne]
  · have hadd := count_set_of_get? (ttVals t) i e.value (ttVals_get? t i e hi) 0 q
    have hL : Multiset.count q (ttContents (tt_setNull t i)) = ((ttVals t).set i 0).count q := by
      rw [count_contents _ q hq, ttVals_setNull t i e hi]
    by_cases hqe : q = e.value
    · have hmem : q ∈ ttVals t := (mem_ttVals t q).mpr ⟨i, e, hi, hqe.symm⟩
      have hcnt : 1 ≤ (ttVals t).count q := List.count_pos_iff.mpr hmem
      rw [hL, ← hqe, Multiset.count_erase_self, count_contents _ q hq]
      simp only [if_pos hqe.symm, if_neg (Ne.symm hq)] at hadd
      omega
    · rw [hL, Multiset.count_erase_of_ne hqe, count_contents _ q hq]
      simp only [if_neg (Ne.symm hqe), if_neg (Ne.symm hq)] at hadd
      omega

theorem tt_setNull_wf (hash : Nat → Nat) (B : Nat) (t : TinyTable) (i : Nat)
    (hwf : TTWf hash B t) : TTWf hash B (tt_setNull t i) := by
  cases hg : t.entries.get? i with
  | none => unfold tt_setNull; rw [hg]; exact hwf
  | some e =>
      unfold tt_setNull
      rw [hg]
      dsimp only
      have hnext_pres : ∀ k,
          ((t.entries.set i ⟨0, e.next⟩).get? k).map TTEntry.next =
            (t.entries.get? k).map TTEntry.next := by
        intro k
        by_cases hk : k = i
        · subst hk
          rw [List.get?_set_eq, hg]
          rfl
        · rw [List.get?_set_ne _ _ (Ne.symm hk)]
      refine ⟨hwf.bpos, ?_, ?_, ?_, ?_⟩
      · rw [List.length_set]; exact hwf.cap
      · intro q; rw [List.length_set]; exact hwf.bnd q
      · intro j e' hj
        by_cases hk : j = i
        · subst hk
          rw [List.get?_set_eq, hg] at hj
          injection hj with hj
          subst hj
          exact hwf.nxt j e hg
        · rw [List.get?_set_ne _ _ (Ne.symm hk)] at hj
          exact hwf.nxt j e' hj
      · intro j e' hj hv
        by_cases hk : j = i
        · subst hk
          rw [List.get?_set_eq, hg] at hj
          injection hj with hj
          subst hj
          simp at hv
        · rw [List.get?_set_ne _ _ (Ne.symm hk)] at hj
          have hold := hwf.place j e' hj hv
          rw [List.length_set]
          rw [chainIdxs_ext _ t.entries hnext_pres]
          exact hold

theorem tt_insert_entries_length (hash : Nat → Nat) (B : Nat) (t : TinyTable) (p : Nat) :
    (tt_insert hash B t p).entries.length = t.entries.length + 1 := by
  simp [tt_insert]

theorem ttVals_insert (hash : Nat → Nat) (B : Nat) (t : TinyTable) (p : Nat) :
    ttVals (tt_insert hash B t p) = ttVals t ++ [p] := by
  unfold tt_insert ttVals
  simp

theorem ttContents_insert (hash : Nat → Nat) (B : Nat) (t : TinyTable) (p : Nat)
    (hp : p ≠ 0) : ttContents (tt_insert hash B t p) = ttContents t + {p} := by
  unfold ttContents
  rw [ttVals_insert]
  rw [List.filter_append]
  apply Multiset.ext.mpr
  intro q
  by_cases hq : q = p <;>
    simp [hp, hq, List.count_append, Multiset.count_singleton]

theorem tt_insert_wf (hash : Nat → Nat) (B : Nat) (t : TinyTable) (p : Nat)
    (hwf : TTWf hash B t) (hcap : t.entries.length < 65535) :
    TTWf hash B (tt_insert hash B t p) := by
  have hsm : SMALL_MOD = 65536 := rfl
  have hmod : (t.entries.length + 1) % SMALL_MOD = t.entries.length + 1 :=
    Nat.mod_eq_of_lt (by omega)
  unfold tt_insert
  dsimp only
  refine ⟨hwf.bpos, ?_, ?_, ?_, ?_⟩
  · rw [List.length_append]
    simp only [List.length_cons, List.length_nil]
    omega
  · intro q
    rw [List.length_append]
    simp only [List.length_cons, List.length_nil]
    unfold upd
    by_cases hq : q = hash p % B
    · rw [if_pos hq, hmod]
    · rw [if_neg hq]
      have := hwf.bnd q
      omega
  · intro j e' hj
    rcases lt_trichotomy j t.entries.length with hlt | heq | hgt
    · rw [List.get?_append hlt] at hj
      exact hwf.nxt j e' hj
    · subst heq
      rw [List.get?_concat_length] at hj
      injection hj with hj
      subst hj
      exact hwf.bnd _
    · exfalso
      have : (t.entries ++ [(⟨p, t.buckets (hash p % B)⟩ : TTEntry)]).get? j = none := by
        rw [List.get?_eq_none]
        rw [List.length_append]
        simp only [List.length_cons, List.length_nil]
        omega
      rw [this] at hj
      cases hj
  · intro j e' hj hv
    have hlen : (t.entries ++ [(⟨p, t.buckets (hash p % B)⟩ : TTEntry)]).length =
        t.entries.length + 1 := by
      rw [List.length_append]; simp
    rcases lt_trichotomy j t.entries.length with hlt | heq | hgt
    · -- an old entry: its bucket chain still reaches it
      rw [List.get?_append hlt] at hj
      have hold := hwf.place j e' hj hv
      rw [hlen]
      by_cases hbkt : hash e'.value % B = hash p % B
      · -- the entry's bucket got the new head: the old chain is its tail
        dsimp only [upd]
        rw [hbkt]
        rw [if_pos rfl, hmod]
        rw [chainIdxs_succ]
        rw [List.get?_concat_length]
        dsimp only
        rw [chainIdxs_append t.entries _ hwf.nxt (t.entries.length + 1) _ (hwf.bnd _)]
        rw [hbkt] at hold
        exact List.mem_cons_of_mem _ hold
      · dsimp only [upd]
        rw [if_neg hbkt]
        rw [chainIdxs_append t.entries _ hwf.nxt (t.entries.length + 1 + 1) _ (hwf.bnd _)]
        rw [chainIdxs_fuel_congr t.entries hwf.nxt (t.buckets (hash e'.value % B))
          (t.entries.length + 1 + 1) (t.entries.length + 1)
          (by have := hwf.bnd (hash e'.value % B); omega)
          (by have := hwf.bnd (hash e'.value % B); omega)]
        exact hold
    · -- the newly inserted entry: it is the head of its bucket's chain
      subst heq
      rw [List.get?_concat_length] at hj
      injection hj with hj
      rw [← hj]
      rw [hlen]
      dsimp only [upd]
      rw [if_pos rfl, hmod]
      rw [chainIdxs_succ]
      rw [List.get?_concat_length]
      exact List.mem_cons_self _ _
    · exfalso
      have hnone : (t.entries ++ [(⟨p, t.buckets (hash p % B)⟩ : TTEntry)]).get? j = none := by
        rw [List.get?_eq_none]
        rw [List.length_append]
        simp only [List.length_cons, List.length_nil]
        omega
      rw [hnone] at hj
      cases hj

/-! ## Building the announced-handles table -/

theorem tt_empty_wf (hash : Nat → Nat) (B : Nat) (hB : 0 < B) : TTWf hash B tt_empty := by
  refine ⟨hB, ?_, ?_, ?_, ?_⟩
  · simp [tt_empty]
  · intro q; simp [tt_empty]
  · intro i e hi; simp [tt_empty] at hi
  · intro i e hi; simp [tt_empty] at hi

theorem ttContents_empty : ttContents tt_empty = 0 := rfl

theorem tt_build_aux (hash : Nat → Nat) (B : Nat) :
    ∀ (A : List Nat) (t : TinyTable), TTWf hash B t →
      t.entries.length + A.length ≤ 65535 →
      TTWf hash B (A.foldl (tt_insert hash B) t) ∧
      (A.foldl (tt_insert hash B) t).entries.length = t.entries.length + A.length ∧
      ((∀ x ∈ A, x ≠ 0) →
        ttContents (A.foldl (tt_insert hash B) t) = ttContents t + (A : Multiset Nat)) := by
  intro A
  induction A with
  | nil => intro t hwf _; simp [hwf]
  | cons x xs ih =>
      intro t hwf hcap
      simp only [List.length_cons] at hcap
      have hwf1 : TTWf hash B (tt_insert hash B t x) :=
        tt_insert_wf hash B t x hwf (by omega)
      have hlen1 := tt_insert_entries_length hash B t x
      obtain ⟨hwf2, hlen2, hcont2⟩ := ih (tt_insert hash B t x) hwf1 (by omega)
      refine ⟨hwf2, ?_, ?_⟩
      · simp only [List.foldl_cons, List.length_cons]
        rw [hlen2, hlen1]
        omega
      · intro hnz
        have hx : x ≠ 0 := hnz x (by simp)
        have hxs : ∀ y ∈ xs, y ≠ 0 := fun y hy => hnz y (by simp [hy])
        simp only [List.foldl_cons]
        rw [hcont2 hxs, ttContents_insert hash B t x hx]
        apply Multiset.ext.mpr
        intro q
        simp only [Multiset.count_add, Multiset.count_singleton, Multiset.coe_count,
          List.count_cons, beq_iff_eq]
        by_cases hqx : q = x <;> simp [hqx] <;> omega

theorem tt_build_spec (hash : Nat → Nat) (B : Nat) (A : List Nat) (hB : 0 < B)
    (hlen : A.length ≤ 65535) (hnz : ∀ x ∈ A, x ≠ 0) :
    TTWf hash B (tt_build hash B A) ∧
    ttContents (tt_build hash B A) = (A : Multiset Nat) := by
  obtain ⟨hwf, _, hcont⟩ := tt_build_aux hash B A tt_empty (tt_empty_wf hash B hB)
    (by simpa [tt_empty] using hlen)
  exact ⟨hwf, by simpa [ttContents_empty] using hcont hnz⟩

/-! ## The deferred-decrement loop refines its multiset description -/

theorem mem_ttContents_iff (hash : Nat → Nat) (B : Nat) (t : TinyTable)
    (hwf : TTWf hash B t) (p : Nat) (hp : p ≠ 0) :
    p ∈ ttContents t ↔ tt_find hash B t p ≠ none := by
  have hcnt : p ∈ ttContents t ↔ 0 < (ttVals t).count p := by
    rw [← Multiset.count_pos, count_contents t p hp]
  rw [hcnt]
  constructor
  · intro hpos hnone
    have := (tt_find_eq_none_iff hash B t hwf p hp).mp hnone
    omega
  · intro hne
    cases hfind : tt_find hash B t p with
    | none => exact absurd hfind hne
    | some j =>
        rcases Nat.eq_zero_or_pos ((ttVals t).count p) with hz | hpos
        · exact absurd ((tt_find_eq_none_iff hash B t hwf p hp).mpr hz) (by simp [hfind])
        · exact hpos

theorem processDefer_eq_spec (hash : Nat → Nat) (B : Nat) :
    ∀ (L : List Nat) (t : TinyTable) (h : Heap), TTWf hash B t → (∀ x ∈ L, x ≠ 0) →
      (processDefer hash B L t h).1 = (processSpec L (ttContents t) h).1 ∧
      (processDefer hash B L t h).2.2 = (processSpec L (ttContents t) h).2.2 := by
  intro L
  induction L with
  | nil => intro t h _ _; simp [processDefer, processSpec]
  | cons x xs ih =>
      intro t h hwf hnz
      have hx : x ≠ 0 := hnz x (by simp)
      have hxs : ∀ y ∈ xs, y ≠ 0 := fun y hy => hnz y (by simp [hy])
      cases hfind : tt_find hash B t x with
      | none =>
          have hnmem : x ∉ ttContents t := by
            intro hmem
            exact (mem_ttContents_iff hash B t hwf x hx).mp hmem hfind
          simp only [processDefer, processSpec, hfind]
          rw [if_neg hnmem]
          exact ih t (decrement_counter x h) hwf hxs
      | some i =>
          obtain ⟨hi_lt, hvi⟩ := tt_find_some hash B t x i hfind
          obtain ⟨e, he⟩ : ∃ e, t.entries.get? i = some e :=
            ⟨t.entries.get ⟨i, hi_lt⟩, List.get?_eq_get hi_lt⟩
          have hev : e.value = x := by rw [← valueAt_eq he]; exact hvi
          have hmem : x ∈ ttContents t :=
            (mem_ttContents_iff hash B t hwf x hx).mpr (by simp [hfind])
          have hwf' : TTWf hash B (tt_setNull t i) := tt_setNull_wf hash B t i hwf
          have hcont' : ttContents (tt_setNull t i) = (ttContents t).erase x := by
            rw [ttContents_setNull t i e he (by rw [hev]; exact hx), hev]
          obtain ⟨ihs, ihh⟩ := ih (tt_setNull t i) h hwf' hxs
          rw [hcont'] at ihs ihh
          simp only [processDefer, processSpec, hfind]
          rw [if_pos hmem]
          exact ⟨by rw [ihs], by rw [ihh]⟩

/-! ## Counting lemmas for the reference reconciliation -/

theorem processSpec_surv (L : List Nat) :
    ∀ (M : Multiset Nat) (h : Heap) (p : Nat),
      ((processSpec L M h).1).count p = min (L.count p) (Multiset.count p M) := by
  induction L with
  | nil => intro M h p; simp [processSpec]
  | cons x xs ih =>
      intro M h p
      simp only [processSpec]
      by_cases hmem : x ∈ M
      · rw [if_pos hmem]
        have hm1 : 1 ≤ Multiset.count x M := Multiset.one_le_count_iff_mem.mpr hmem
        simp only [List.count_cons, beq_iff_eq]
        rw [ih (M.erase x) h p]
        by_cases hxp : x = p
        · subst hxp
          rw [Multiset.count_erase_self]
          simp only [eq_self_iff_true, if_true]
          omega
        · rw [Multiset.count_erase_of_ne (fun hpe => hxp hpe.symm)]
          simp only [if_neg hxp]
          omega
      · rw [if_neg hmem]
        have hm0 : Multiset.count x M = 0 := Multiset.count_eq_zero.mpr hmem
        simp only [List.count_cons, beq_iff_eq]
        rw [ih M (decrement_counter x h) p]
        by_cases hxp : x = p
        · subst hxp
          simp only [eq_self_iff_true, if_true, hm0]
          omega
        · simp only [if_neg hxp]
          omega

theorem processSpec_heap (L : List Nat) :
    ∀ (M : Multiset Nat) (h : Heap), HeapWf h →
      (∀ q, L.count q ≤ h.refs q) →
      HeapWf (processSpec L M h).2.2 ∧
      (∀ p, (processSpec L M h).2.2.refs p =
        h.refs p - (L.count p - Multiset.count p M)) := by
  induction L with
  | nil => intro M h hw _; exact ⟨hw, fun p => by simp [processSpec]⟩
  | cons x xs ih =>
      intro M h hw hcnt
      have hx1 : 1 ≤ (x :: xs).count x := by
        simp [List.count_cons]
      have hxs_le : ∀ q, xs.count q ≤ h.refs q := by
        intro q
        have := hcnt q
        have hle : xs.count q ≤ (x :: xs).count q := by
          simp only [List.count_cons, beq_iff_eq]
          omega
        omega
      simp only [processSpec]
      by_cases hmem : x ∈ M
      · rw [if_pos hmem]
        have hm1 : 1 ≤ Multiset.count x M := Multiset.one_le_count_iff_mem.mpr hmem
        obtain ⟨ihw, ihr⟩ := ih (M.erase x) h hw hxs_le
        refine ⟨ihw, fun p => ?_⟩
        rw [ihr p]
        by_cases hxp : x = p
        · subst hxp
          rw [Multiset.count_erase_self]
          simp only [List.count_cons, beq_iff_eq, eq_self_iff_true, if_true, if_pos rfl]
          omega
        · rw [Multiset.count_erase_of_ne (fun hpe => hxp hpe.symm)]
          simp only [List.count_cons, beq_iff_eq, if_neg hxp]
          omega
      · rw [if_neg hmem]
        have hm0 : Multiset.count x M = 0 := Multiset.count_eq_zero.mpr hmem
        have hrx : 0 < h.refs x := by
          have := hcnt x
          omega
        have hw' : HeapWf (decrement_counter x h) := decrement_counter_wf x h hw
        have hdx : (decrement_counter x h).refs x = h.refs x - 1 :=
          decrement_counter_refs_self x h hrx (hw x)
        have hxs_le' : ∀ q, xs.count q ≤ (decrement_counter x h).refs q := by
          intro q
          by_cases hq : q = x
          · subst hq
            rw [hdx]
            have := hcnt q
            simp only [List.count_cons, beq_iff_eq, eq_self_iff_true, if_true, if_pos rfl] at this
            omega
          · rw [decrement_counter_refs_other x q h hq]
            exact hxs_le q
        obtain ⟨ihw, ihr⟩ := ih M (decrement_counter x h) hw' hxs_le'
        refine ⟨ihw, fun p => ?_⟩
        rw [ihr p]
        by_cases hxp : x = p
        · subst hxp
          rw [hdx]
          have := hcnt x
          simp only [List.count_cons, beq_iff_eq, eq_self_iff_true, if_true, if_pos rfl, hm0]
          omega
        · rw [decrement_counter_refs_other x p h (fun hpe => hxp hpe.symm)]
          simp only [List.count_cons, beq_iff_eq, if_neg hxp]
          omega

theorem processSpec_freed_mono (L : List Nat) :
    ∀ (M : Multiset Nat) (h : Heap) (x : Nat), x ∈ h.freed →
      x ∈ (processSpec L M h).2.2.freed := by
  induction L with
  | nil => intro M h x hx; simpa [processSpec] using hx
  | cons y ys ih =>
      intro M h x hx
      simp only [processSpec]
      by_cases hmem : y ∈ M
      · rw [if_pos hmem]
        exact ih (M.erase y) h x hx
      · rw [if_neg hmem]
        exact ih M (decrement_counter y h) x (decrement_counter_freed_mono y x h hx)

theorem processSpec_zero_surv (L : List Nat) :
    ∀ h : Heap, (processSpec L (0 : Multiset Nat) h).1 = [] := by
  induction L with
  | nil => intro h; rfl
  | cons x xs ih =>
      intro h
      simp only [processSpec]
      rw [if_neg (by simp : ¬ x ∈ (0 : Multiset Nat))]
      exact ih (decrement_counter x h)

theorem processSpec_zero_freed (L : List Nat) :
    ∀ (h : Heap) (p : Nat), HeapWf h → h.refs p = L.count p → 0 < L.count p →
      p ∈ (processSpec L (0 : Multiset Nat) h).2.2.freed := by
  induction L with
  | nil => intro h p _ _ hpos; simp at hpos
  | cons x xs ih =>
      intro h p hw heq hpos
      simp only [processSpec]
      rw [if_neg (by simp : ¬ x ∈ (0 : Multiset Nat))]
      by_cases hxp : x = p
      · subst hxp
        simp only [List.count_cons, beq_iff_eq, eq_self_iff_true, if_true, if_pos rfl] at heq
        by_cases hc : xs.count x = 0
        · have hone : h.refs x = 1 := by omega
          have hfreed : x ∈ (decrement_counter x h).freed := by
            rw [decrement_counter_freed, if_pos hone]
            simp
          exact processSpec_freed_mono xs 0 (decrement_counter x h) x hfreed
        · apply ih (decrement_counter x h) x (decrement_counter_wf x h hw)
          · rw [decrement_counter_refs_self x h (by omega) (hw x)]
            omega
          · omega
      · simp only [List.count_cons, beq_iff_eq, if_neg hxp] at heq hpos
        apply ih (decrement_counter x h) p (decrement_counter_wf x h hw)
        · rw [decrement_counter_refs_other x p h (fun hpe => hxp hpe.symm)]
          exact heq
        · exact hpos

/-! ## Queue bookkeeping helpers -/

theorem getD_set_self {α : Type} (l : List α) (i : Nat) (a d : α) (hi : i < l.length) :
    (l.set i a).getD i d = a := by
  rw [List.getD_eq_get?, List.get?_set_eq, List.get?_eq_get hi]
  rfl

theorem getD_set_other {α : Type} (l : List α) (i j : Nat) (a d : α) (hij : i ≠ j) :
    (l.set i a).getD j d = l.getD j d := by
  rw [List.getD_eq_get?, List.get?_set_ne _ _ hij, List.getD_eq_get?]

theorem sum_map_set (f : List Nat → Nat) :
    ∀ (l : List (List Nat)) (i : Nat) (a : List Nat), i < l.length →
      ((l.set i a).map f).sum + f (l.getD i []) = (l.map f).sum + f a := by
  intro l
  induction l with
  | nil => intro i a hi; simp at hi
  | cons x xs ih =>
      intro i a hi
      cases i with
      | zero => simp [List.set]; omega
      | succ n =>
          simp only [List.set, List.map_cons, List.sum_cons, List.getD_cons_succ]
          have := ih n a (by simpa using hi)
          omega

theorem getD_count_le_sum (p : Nat) :
    ∀ (l : List (List Nat)) (i : Nat),
      (l.getD i []).count p ≤ (l.map (fun q => q.count p)).sum := by
  intro l
  induction l with
  | nil => intro i; simp
  | cons x xs ih =>
      intro i
      cases i with
      | zero =>
          simp only [List.getD_cons_zero, List.map_cons, List.sum_cons]
          omega
      | succ n =>
          simp only [List.getD_cons_succ, List.map_cons, List.sum_cons]
          have := ih n
          omega

theorem announcedList_nz (slots : List LocalSlot) :
    ∀ x ∈ announcedList slots, x ≠ 0 := by
  intro x hx
  unfold announcedList at hx
  rw [List.mem_flatten] at hx
  obtain ⟨l, hl, hxl⟩ := hx
  rw [List.mem_map] at hl
  obtain ⟨ls, _, rfl⟩ := hl
  rw [List.mem_append] at hxl
  cases hxl with
  | inl hxl =>
      by_cases hann : ls.announcement ≠ 0
      · rw [if_pos hann] at hxl
        simp only [List.mem_singleton] at hxl
        subst hxl
        exact hann
      · rw [if_neg hann] at hxl
        simp at hxl
  | inr hxl =>
      have := List.of_mem_filter hxl
      simpa using this

/-! ## One round of `perform_deferred_decrements` -/

theorem flushOnce_spec (hash : Nat → Nat) (B id : Nat) (e : Engine) (h : Heap)
    (hB : 0 < B)
    (hA : (announcedList e.announcement_slots).length ≤ 65535)
    (hLnz : ∀ x ∈ e.deferred_destructs.getD id [], x ≠ 0) :
    (flushOnce hash B id e h).1.announcement_slots = e.announcement_slots ∧
    (flushOnce hash B id e h).1.in_progress = e.in_progress.set id false ∧
    (flushOnce hash B id e h).1.deferred_destructs =
      e.deferred_destructs.set id
        (processSpec (e.deferred_destructs.getD id [])
          (announcedList e.announcement_slots : Multiset Nat) h).1 ∧
    (flushOnce hash B id e h).2 =
      (processSpec (e.deferred_destructs.getD id [])
        (announcedList e.announcement_slots : Multiset Nat) h).2.2 := by
  obtain ⟨hwf, hcont⟩ := tt_build_spec hash B (announcedList e.announcement_slots) hB hA
    (announcedList_nz e.announcement_slots)
  obtain ⟨hsurv, hheap⟩ := processDefer_eq_spec hash B (e.deferred_destructs.getD id [])
    (tt_build hash B (announcedList e.announcement_slots)) h hwf hLnz
  rw [hcont] at hsurv hheap
  unfold flushOnce
  refine ⟨rfl, ?_, ?_, ?_⟩
  · dsimp only
    rw [List.set_set]
  · dsimp only
    rw [List.set_set, hsurv]
  · exact hheap

/-- C3: in one reconciliation round of `perform_deferred_decrements` for
worker `w`, after the deferred queue is moved to the local list `L` and
the table of all currently announced pointers is built (a multiset `M`),
the round behaves exactly as the spec's per-pointer description
(`processSpec`): each `p` in `L` with a remaining matching occurrence in
`M` is retained, consuming one occurrence per retained entry, and each
`p` without a remaining match receives exactly one decrement of
`p.refs` — freeing the box when the decrement reaches zero — so that the
retained count of `p` is `min (#deferred p) (#announced p)` and `p`'s
count drops by exactly the number of unmatched occurrences; afterwards
`w`'s queue contains exactly the retained survivors. -/
theorem perform_deferred_round (hash : Nat → Nat) (B id : Nat) (e : Engine) (h : Heap)
    (hB : 0 < B)
    (hA : (announcedList e.announcement_slots).length ≤ 65535)
    (hLnz : ∀ x ∈ e.deferred_destructs.getD id [], x ≠ 0)
    (hw : HeapWf h)
    (hcnt : ∀ q, (e.deferred_destructs.getD id []).count q ≤ h.refs q) :
    (flushOnce hash B id e h).1.deferred_destructs =
      e.deferred_destructs.set id
        (processSpec (e.deferred_destructs.getD id [])
          (announcedList e.announcement_slots : Multiset Nat) h).1 ∧
    (flushOnce hash B id e h).2 =
      (processSpec (e.deferred_destructs.getD id [])
        (announcedList e.announcement_slots : Multiset Nat) h).2.2 ∧
    (∀ p, ((processSpec (e.deferred_destructs.getD id [])
        (announcedList e.announcement_slots : Multiset Nat) h).1).count p =
      min ((e.deferred_destructs.getD id []).count p)
        (Multiset.count p (announcedList e.announcement_slots : Multiset Nat))) ∧
    (∀ p, ((processSpec (e.deferred_destructs.getD id [])
        (announcedList e.announcement_slots : Multiset Nat) h).2.2).refs p =
      h.refs p - ((e.deferred_destructs.getD id []).count p -
        Multiset.count p (announcedList e.announcement_slots : Multiset Nat))) := by
  obtain ⟨_, _, hq, hh⟩ := flushOnce_spec hash B id e h hB hA hLnz
  refine ⟨hq, hh, ?_, ?_⟩
  · intro p
    exact processSpec_surv (e.deferred_destructs.getD id []) _ h p
  · intro p
    exact (processSpec_heap (e.deferred_destructs.getD id []) _ h hw hcnt).2 p

/-- Witness for C3: one worker announcing boxes 5 (primary) and 7
(snapshot slot), deferred queue `[5, 6]`, all counts 3: box 5 is
retained (producing queue `[5]`), box 6 is decremented once. -/
theorem perform_deferred_round_witness :
    (flushOnce (fun v => v) 1024 0
        ⟨[⟨5, 0, [7, 0, 0]⟩], [false], [[5, 6]]⟩ ⟨fun _ => 3, []⟩).1.deferred_destructs =
      ([[5, 6]] : List (List Nat)).set 0
        (processSpec [5, 6] (announcedList [⟨5, 0, [7, 0, 0]⟩] : Multiset Nat)
          ⟨fun _ => 3, []⟩).1 ∧
    (flushOnce (fun v => v) 1024 0
        ⟨[⟨5, 0, [7, 0, 0]⟩], [false], [[5, 6]]⟩ ⟨fun _ => 3, []⟩).2 =
      (processSpec [5, 6] (announcedList [⟨5, 0, [7, 0, 0]⟩] : Multiset Nat)
        ⟨fun _ => 3, []⟩).2.2 ∧
    ((processSpec [5, 6] (announcedList [⟨5, 0, [7, 0, 0]⟩] : Multiset Nat)
        ⟨fun _ => 3, []⟩).1).count 5 =
      min (([5, 6] : List Nat).count 5)
        (Multiset.count 5 (announcedList [⟨5, 0, [7, 0, 0]⟩] : Multiset Nat)) ∧
    ((processSpec [5, 6] (announcedList [⟨5, 0, [7, 0, 0]⟩] : Multiset Nat)
        ⟨fun _ => 3, []⟩).2.2).refs 6 =
      (⟨fun _ => 3, []⟩ : Heap).refs 6 - (([5, 6] : List Nat).count 6 -
        Multiset.count 6 (announcedList [⟨5, 0, [7, 0, 0]⟩] : Multiset Nat)) := by
  obtain ⟨h1, h2, h3, h4⟩ := perform_deferred_round (fun v => v) 1024 0
    ⟨[⟨5, 0, [7, 0, 0]⟩], [false], [[5, 6]]⟩ ⟨fun _ => 3, []⟩
    (by decide) (by decide) (by decide) (fun p => by show (3 : Nat) < U64; decide)
    (fun q => le_trans (List.count_le_length q [5, 6]) (by show (2 : Nat) ≤ 3; decide))
  exact ⟨h1, h2, h3 5, h4 6⟩

/-! ## Preservation of logical counts by the engine -/

theorem mem_of_mem_set {α : Type} :
    ∀ (l : List α) (i : Nat) (a x : α), x ∈ l.set i a → x = a ∨ x ∈ l := by
  intro l
  induction l with
  | nil => intro i a x hx; simp [List.set] at hx
  | cons y ys ih =>
      intro i a x hx
      cases i with
      | zero =>
          simp only [List.set, List.mem_cons] at hx
          cases hx with
          | inl hx => exact Or.inl hx
          | inr hx => exact Or.inr (List.mem_cons_of_mem y hx)
      | succ n =>
          simp only [List.set, List.mem_cons] at hx
          cases hx with
          | inl hx => exact Or.inr (by simp [hx])
          | inr hx =>
              cases ih n a x hx with
              | inl hx => exact Or.inl hx
              | inr hx => exact Or.inr (List.mem_cons_of_mem y hx)

theorem flushCond_false_of_small (delay id : Nat) (e : Engine)
    (hlen : (e.deferred_destructs.getD id []).length < e.announcement_slots.length * delay) :
    flushCond delay id e = false := by
  unfold flushCond
  have hdec : decide (e.announcement_slots.length * delay ≤
      (e.deferred_destructs.getD id []).length) = false :=
    decide_eq_false (by omega)
  rw [hdec, Bool.and_false]

theorem performDeferredAux_no_flush (hash : Nat → Nat) (B delay id : Nat)
    (fuel : Nat) (s : Engine × Heap) (hc : flushCond delay id s.1 = false) :
    performDeferredAux hash B delay id fuel s = s := by
  cases fuel with
  | zero => rfl
  | succ f => simp [performDeferredAux, hc]

/-- The single-round flush preserves well-formedness, the conservation
bound, and every box's logical reference count. -/
theorem flushOnce_preserves (hash : Nat → Nat) (B id : Nat) (e : Engine) (h : Heap)
    (hB : 0 < B)
    (hA : (announcedList e.announcement_slots).length ≤ 65535)
    (hqnz : ∀ q ∈ e.deferred_destructs, ∀ x ∈ q, x ≠ 0)
    (hid : id < e.deferred_destructs.length)
    (hw : HeapWf h)
    (hcons : ∀ q, pendCount q e ≤ h.refs q) :
    (flushOnce hash B id e h).1.announcement_slots = e.announcement_slots ∧
    (flushOnce hash B id e h).1.deferred_destructs.length = e.deferred_destructs.length ∧
    (∀ q ∈ (flushOnce hash B id e h).1.deferred_destructs, ∀ x ∈ q, x ≠ 0) ∧
    HeapWf (flushOnce hash B id e h).2 ∧
    (∀ q, pendCount q (flushOnce hash B id e h).1 ≤ (flushOnce hash B id e h).2.refs q) ∧
    (∀ q, ((flushOnce hash B id e h).2.refs q : Int) - pendCount q (flushOnce hash B id e h).1 =
      (h.refs q : Int) - pendCount q e) ∧
    (∀ q, (flushOnce hash B id e h).2.refs q ≤ h.refs q) ∧
    (∀ x, x ∈ h.freed → x ∈ (flushOnce hash B id e h).2.freed) := by
  have hgetD : e.deferred_destructs.getD id [] ∈ e.deferred_destructs := by
    rw [List.getD_eq_get?, List.get?_eq_get hid]
    exact List.get_mem _ _ _
  have hLnz : ∀ x ∈ e.deferred_destructs.getD id [], x ≠ 0 := hqnz _ hgetD
  have hLle : ∀ q, (e.deferred_destructs.getD id []).count q ≤ h.refs q := fun q =>
    le_trans (getD_count_le_sum q e.deferred_destructs id) (hcons q)
  obtain ⟨hslots, _hip, hq, hh⟩ := flushOnce_spec hash B id e h hB hA hLnz
  obtain ⟨hw', hrefs⟩ := processSpec_heap (e.deferred_destructs.getD id [])
    (announcedList e.announcement_slots : Multiset Nat) h hw hLle
  have hsurv := processSpec_surv (e.deferred_destructs.getD id [])
    (announcedList e.announcement_slots : Multiset Nat) h
  have hsum := fun q => sum_map_set (fun l => l.count q) e.deferred_destructs id
    (processSpec (e.deferred_destructs.getD id [])
      (announcedList e.announcement_slots : Multiset Nat) h).1 hid
  refine ⟨hslots, ?_, ?_, ?_, ?_, ?_, ?_, ?_⟩
  · rw [hq, List.length_set]
  · intro q hqmem x hx
    rw [hq] at hqmem
    cases mem_of_mem_set _ _ _ _ hqmem with
    | inl hqs =>
        subst hqs
        have hcx := List.count_pos_iff.mpr hx
        rw [hsurv x] at hcx
        have hLx : 0 < (e.deferred_destructs.getD id []).count x := by omega
        exact hLnz x (List.count_pos_iff.mp hLx)
    | inr hqs => exact hqnz q hqs x hx
  · rw [hh]; exact hw'
  · intro q
    unfold pendCount
    rw [hq, hh, hrefs q]
    have hs := hsum q
    have hle := hLle q
    have hpc := hcons q
    unfold pendCount at hpc
    have hsv := hsurv q
    have hLsum := getD_count_le_sum q e.deferred_destructs id
    omega
  · intro q
    unfold pendCount
    rw [hq, hh, hrefs q]
    have hs := hsum q
    have hle := hLle q
    have hpc := hcons q
    unfold pendCount at hpc
    have hsv := hsurv q
    have hLsum := getD_count_le_sum q e.deferred_destructs id
    omega
  · intro q
    rw [hh, hrefs q]
    omega
  · intro x hx
    rw [hh]
    exact processSpec_freed_mono _ _ _ x hx

/-- The fueled `perform_deferred_decrements` loop preserves the same
invariants. -/
theorem performDeferredAux_preserves (hash : Nat → Nat) (B delay id : Nat) :
    ∀ (fuel : Nat) (e : Engine) (h : Heap),
      0 < B →
      (announcedList e.announcement_slots).length ≤ 65535 →
      (∀ q ∈ e.deferred_destructs, ∀ x ∈ q, x ≠ 0) →
      id < e.deferred_destructs.length →
      HeapWf h →
      (∀ q, pendCount q e ≤ h.refs q) →
      (performDeferredAux hash B delay id fuel (e, h)).1.announcement_slots =
        e.announcement_slots ∧
      (performDeferredAux hash B delay id fuel (e, h)).1.deferred_destructs.length =
        e.deferred_destructs.length ∧
      (∀ q ∈ (performDeferredAux hash B delay id fuel (e, h)).1.deferred_destructs,
        ∀ x ∈ q, x ≠ 0) ∧
      HeapWf (performDeferredAux hash B delay id fuel (e, h)).2 ∧
      (∀ q, pendCount q (performDeferredAux hash B delay id fuel (e, h)).1 ≤
        (performDeferredAux hash B delay id fuel (e, h)).2.refs q) ∧
      (∀ q, ((performDeferredAux hash B delay id fuel (e, h)).2.refs q : Int) -
          pendCount q (performDeferredAux hash B delay id fuel (e, h)).1 =
        (h.refs q : Int) - pendCount q e) ∧
      (∀ q, (performDeferredAux hash B delay id fuel (e, h)).2.refs q ≤ h.refs q) ∧
      (∀ x, x ∈ h.freed →
        x ∈ (performDeferredAux hash B delay id fuel (e, h)).2.freed) := by
  intro fuel
  induction fuel with
  | zero =>
      intro e h _ _ hqnz _ hw hcons
      exact ⟨rfl, rfl, hqnz, hw, hcons, fun q => rfl, fun q => le_refl _, fun x hx => hx⟩
  | succ f ih =>
      intro e h hB hA hqnz hid hw hcons
      by_cases hc : flushCond delay id e = true
      · simp only [performDeferredAux, hc, if_true]
        obtain ⟨h1, h2, h3, h4, h5, h6, h8, h7⟩ :=
          flushOnce_preserves hash B id e h hB hA hqnz hid hw hcons
        obtain ⟨g1, g2, g3, g4, g5, g6, g8, g7⟩ := ih (flushOnce hash B id e h).1
          (flushOnce hash B id e h).2 hB (by rw [h1]; exact hA) h3 (by omega) h4 h5
        refine ⟨by rw [g1, h1], by rw [g2, h2], g3, g4, g5, fun q => ?_,
          fun q => le_trans (g8 q) (h8 q), fun x hx => g7 x (h7 x hx)⟩
        rw [g6 q, h6 q]
      · rw [performDeferredAux_no_flush hash B delay id (f + 1) (e, h)
          (by simpa using hc)]
        exact ⟨rfl, rfl, hqnz, hw, hcons, fun q => rfl, fun q => le_refl _, fun x hx => hx⟩

/-- `retire` enqueues exactly one owed decrement for `p` and then runs
the deferred-decrement loop, so every box's logical count is what it was
except that `p` has relinquished one unit. -/
theorem retire_preserves (hash : Nat → Nat) (B delay p id : Nat) (e : Engine) (h : Heap)
    (hB : 0 < B)
    (hA : (announcedList e.announcement_slots).length ≤ 65535)
    (hqnz : ∀ q ∈ e.deferred_destructs, ∀ x ∈ q, x ≠ 0)
    (hid : id < e.deferred_destructs.length)
    (hw : HeapWf h)
    (hcons : ∀ q, pendCount q e ≤ h.refs q)
    (hp : p ≠ 0)
    (hown : pendCount p e < h.refs p) :
    (retire hash B delay p id (e, h)).1.announcement_slots = e.announcement_slots ∧
    (retire hash B delay p id (e, h)).1.deferred_destructs.length =
      e.deferred_destructs.length ∧
    (∀ q ∈ (retire hash B delay p id (e, h)).1.deferred_destructs, ∀ x ∈ q, x ≠ 0) ∧
    HeapWf (retire hash B delay p id (e, h)).2 ∧
    (∀ q, pendCount q (retire hash B delay p id (e, h)).1 ≤
      (retire hash B delay p id (e, h)).2.refs q) ∧
    (∀ q, ((retire hash B delay p id (e, h)).2.refs q : Int) -
        pendCount q (retire hash B delay p id (e, h)).1 =
      (h.refs q : Int) - pendCount q e - (if q = p then 1 else 0)) ∧
    (∀ q, (retire hash B delay p id (e, h)).2.refs q ≤ h.refs q) := by
  have hgetD : e.deferred_destructs.getD id [] ∈ e.deferred_destructs := by
    rw [List.getD_eq_get?, List.get?_eq_get hid]
    exact List.get_mem _ _ _
  have hpend' : ∀ q,
      pendCount q (Engine.mk e.announcement_slots e.in_progress
        (e.deferred_destructs.set id ((e.deferred_destructs.getD id []) ++ [p]))) =
      pendCount q e + (if q = p then 1 else 0) := by
    intro q
    unfold pendCount
    have hs := sum_map_set (fun l => l.count q) e.deferred_destructs id
      ((e.deferred_destructs.getD id []) ++ [p]) hid
    simp only [List.count_append] at hs
    have hsing : List.count q [p] = if q = p then 1 else 0 := by
      by_cases hqp : q = p <;> simp [hqp]
    rw [hsing] at hs
    dsimp only
    omega
  have hqnz' : ∀ q ∈ (Engine.mk e.announcement_slots e.in_progress
      (e.deferred_destructs.set id ((e.deferred_destructs.getD id []) ++ [p]))).deferred_destructs,
      ∀ x ∈ q, x ≠ 0 := by
    intro q hq x hx
    cases mem_of_mem_set _ _ _ _ hq with
    | inl hq =>
        subst hq
        rw [List.mem_append] at hx
        cases hx with
        | inl hx => exact hqnz _ hgetD x hx
        | inr hx =>
            rw [List.mem_singleton] at hx
            subst hx
            exact hp
    | inr hq => exact hqnz q hq x hx
  have hcons' : ∀ q,
      pendCount q (Engine.mk e.announcement_slots e.in_progress
        (e.deferred_destructs.set id ((e.deferred_destructs.getD id []) ++ [p]))) ≤
      h.refs q := by
    intro q
    rw [hpend' q]
    by_cases hqp : q = p
    · subst hqp
      simp only [eq_self_iff_true, if_true]
      omega
    · simp only [if_neg hqp]
      exact hcons q
  have hid' : id < (Engine.mk e.announcement_slots e.in_progress
      (e.deferred_destructs.set id ((e.deferred_destructs.getD id [])
        ++ [p]))).deferred_destructs.length := by
    dsimp only
    rw [List.length_set]
    exact hid
  obtain ⟨k1, k2, k3, k4, k5, k6, k8, _k7⟩ := performDeferredAux_preserves hash B delay id 2
    (Engine.mk e.announcement_slots e.in_progress
      (e.deferred_destructs.set id ((e.deferred_destructs.getD id []) ++ [p]))) h
    hB hA hqnz' hid' hw hcons'
  have hret : retire hash B delay p id (e, h) =
      performDeferredAux hash B delay id 2
        (Engine.mk e.announcement_slots e.in_progress
          (e.deferred_destructs.set id ((e.deferred_destructs.getD id []) ++ [p])), h) := rfl
  rw [hret]
  refine ⟨k1, by rw [k2]; dsimp only; rw [List.length_set], k3, k4, k5, ?_, k8⟩
  intro q
  have hkey := k6 q
  rw [hpend' q] at hkey
  by_cases hqp : q = p
  · subst hqp
    simp only [eq_self_iff_true, if_true] at hkey ⊢
    omega
  · simp only [if_neg hqp] at hkey ⊢
    omega

/-- C2: for every `compare_and_swap(expected, desired)` call on the
atomic cell (copy and move forms): if the cell's pointer equals the
expected box pointer, the call returns `true`, replaces exactly the
expected box with the desired box (the cell now stores `desired`, and
the cell's unit on `expected` is relinquished as exactly one deferred
decrement), and deposits exactly one unit of `refs` on the desired box
attributable to the cell — the logical count (stored count minus owed
deferred decrements) of `desired` rises by exactly one, that of
`expected` falls by exactly one, and every other box is untouched (the
move form transfers the caller's unit instead, emptying the `desired`
handle, so no logical count rises).  Otherwise the call returns `false`
and leaves the cell, the engine, the heap, and both handles completely
unchanged. -/
theorem compare_and_swap_semantics (hash : Nat → Nat) (B delay id : Nat) (s : Sys)
    (expectedv desiredv : Nat)
    (hB : 0 < B)
    (hA : (announcedList s.eng.announcement_slots).length ≤ 65535)
    (hqnz : ∀ q ∈ s.eng.deferred_destructs, ∀ x ∈ q, x ≠ 0)
    (hid : id < s.eng.deferred_destructs.length)
    (hw : HeapWf s.heap)
    (hcons : ∀ q, pendCount q s.eng ≤ s.heap.refs q)
    (hown : expectedv ≠ 0 → pendCount expectedv s.eng < s.heap.refs expectedv)
    (hov : s.heap.refs desiredv + 1 < U64) :
    (s.cell = expectedv →
      (compare_and_swap_copy hash B delay id s expectedv desiredv).1 = true ∧
      (compare_and_swap_copy hash B delay id s expectedv desiredv).2.cell = desiredv ∧
      (∀ q, q ≠ 0 →
        logicalRefs q (compare_and_swap_copy hash B delay id s expectedv desiredv).2 =
          logicalRefs q s + (if q = desiredv then 1 else 0)
            - (if q = expectedv then 1 else 0)) ∧
      (compare_and_swap_move hash B delay id s expectedv desiredv).1 = true ∧
      (compare_and_swap_move hash B delay id s expectedv desiredv).2.1.cell = desiredv ∧
      (compare_and_swap_move hash B delay id s expectedv desiredv).2.2 = 0 ∧
      (∀ q, q ≠ 0 →
        logicalRefs q (compare_and_swap_move hash B delay id s expectedv desiredv).2.1 =
          logicalRefs q s - (if q = expectedv then 1 else 0))) ∧
    (s.cell ≠ expectedv →
      compare_and_swap_copy hash B delay id s expectedv desiredv = (false, s) ∧
      compare_and_swap_move hash B delay id s expectedv desiredv = (false, s, desiredv)) := by
  constructor
  · intro hcell
    by_cases he : expectedv = 0
    · -- null expected: nothing is retired, the engine is untouched
      have hstatem : compare_and_swap_move hash B delay id s expectedv desiredv =
          (true, ⟨desiredv, s.eng, s.heap⟩, 0) := by
        unfold compare_and_swap_move
        rw [if_pos hcell]
        dsimp only
        rw [if_neg (not_not_intro he)]
      by_cases hd : desiredv = 0
      · have hstatec : compare_and_swap_copy hash B delay id s expectedv desiredv =
            (true, ⟨desiredv, s.eng, s.heap⟩) := by
          unfold compare_and_swap_copy
          rw [if_pos hcell]
          dsimp only
          rw [if_neg (not_not_intro hd), if_neg (not_not_intro he)]
        rw [hstatec, hstatem]
        refine ⟨rfl, rfl, ?_, rfl, rfl, rfl, ?_⟩
        · intro q hq
          unfold logicalRefs
          simp only [if_neg (fun hqd : q = desiredv => hq (hqd.trans hd)),
            if_neg (fun hqe : q = expectedv => hq (hqe.trans he))]
          omega
        · intro q hq
          unfold logicalRefs
          simp only [if_neg (fun hqe : q = expectedv => hq (hqe.trans he))]
          omega
      · have hstatec : compare_and_swap_copy hash B delay id s expectedv desiredv =
            (true, ⟨desiredv, s.eng, increment_counter desiredv s.heap⟩) := by
          unfold compare_and_swap_copy
          rw [if_pos hcell]
          dsimp only
          rw [if_pos hd, if_neg (not_not_intro he)]
        rw [hstatec, hstatem]
        refine ⟨rfl, rfl, ?_, rfl, rfl, rfl, ?_⟩
        · intro q hq
          unfold logicalRefs
          simp only [if_neg (fun hqe : q = expectedv => hq (hqe.trans he))]
          by_cases hqd : q = desiredv
          · subst hqd
            rw [increment_counter_refs_self q s.heap hov]
            simp only [eq_self_iff_true, if_true]
            omega
          · rw [increment_counter_refs_other desiredv q s.heap hqd]
            simp only [if_neg hqd]
            omega
        · intro q hq
          unfold logicalRefs
          simp only [if_neg (fun hqe : q = expectedv => hq (hqe.trans he))]
          omega
    · -- non-null expected: it is retired, one deferred decrement enqueued
      obtain ⟨r1, r2, r3, r4, r5, r6, r8⟩ :=
        retire_preserves hash B delay expectedv id s.eng s.heap
          hB hA hqnz hid hw hcons he (hown he)
      have hstatem : compare_and_swap_move hash B delay id s expectedv desiredv =
          (true, ⟨desiredv, (retire hash B delay expectedv id (s.eng, s.heap)).1,
            (retire hash B delay expectedv id (s.eng, s.heap)).2⟩, 0) := by
        unfold compare_and_swap_move
        rw [if_pos hcell]
        dsimp only
        rw [if_pos he]
      by_cases hd : desiredv = 0
      · have hstatec : compare_and_swap_copy hash B delay id s expectedv desiredv =
            (true, ⟨desiredv, (retire hash B delay expectedv id (s.eng, s.heap)).1,
              (retire hash B delay expectedv id (s.eng, s.heap)).2⟩) := by
          unfold compare_and_swap_copy
          rw [if_pos hcell]
          dsimp only
          rw [if_neg (not_not_intro hd), if_pos he]
        rw [hstatec, hstatem]
        refine ⟨rfl, rfl, ?_, rfl, rfl, rfl, ?_⟩ <;>
        · intro q hq
          unfold logicalRefs
          have hkey := r6 q
          simp only [if_neg (fun hqd : q = desiredv => hq (hqd.trans hd))]
          by_cases hqe : q = expectedv
          · simp only [if_pos hqe] at hkey ⊢
            omega
          · simp only [if_neg hqe] at hkey ⊢
            omega
      · have hstatec : compare_and_swap_copy hash B delay id s expectedv desiredv =
            (true, ⟨desiredv, (retire hash B delay expectedv id (s.eng, s.heap)).1,
              increment_counter desiredv
                (retire hash B delay expectedv id (s.eng, s.heap)).2⟩) := by
          unfold compare_and_swap_copy
          rw [if_pos hcell]
          dsimp only
          rw [if_pos hd, if_pos he]
        rw [hstatec, hstatem]
        have hovr : (retire hash B delay expectedv id (s.eng, s.heap)).2.refs desiredv + 1
            < U64 := by
          have := r8 desiredv
          omega
        refine ⟨rfl, rfl, ?_, rfl, rfl, rfl, ?_⟩
        · intro q hq
          unfold logicalRefs
          have hkey := r6 q
          by_cases hqd : q = desiredv
          · subst hqd
            rw [increment_counter_refs_self q _ hovr]
            simp only [eq_self_iff_true, if_true]
            by_cases hqe : q = expectedv
            · simp only [if_pos hqe] at hkey ⊢
              omega
            · simp only [if_neg hqe] at hkey ⊢
              omega
          · rw [increment_counter_refs_other desiredv q _ hqd]
            simp only [if_neg hqd]
            by_cases hqe : q = expectedv
            · simp only [if_pos hqe] at hkey ⊢
              omega
            · simp only [if_neg hqe] at hkey ⊢
              omega
        · intro q hq
          unfold logicalRefs
          have hkey := r6 q
          by_cases hqe : q = expectedv
          · simp only [if_pos hqe] at hkey ⊢
            omega
          · simp only [if_neg hqe] at hkey ⊢
            omega
  · intro hcell
    constructor
    · unfold compare_and_swap_copy
      rw [if_neg hcell]
    · unfold compare_and_swap_move
      rw [if_neg hcell]

/-- Witness for C2: a cell holding box 1 (= expected), desired box 2,
one worker with an empty queue, counts `refs 1 = 1`, `refs 2 = 1`. -/
theorem compare_and_swap_semantics_witness :
    (compare_and_swap_copy (fun v => v) 1024 5 0
      ⟨1, ⟨[⟨0, 0, [0, 0, 0]⟩], [false], [[]]⟩, ⟨fun _ => 1, []⟩⟩ 1 2).1 = true ∧
    (compare_and_swap_copy (fun v => v) 1024 5 0
      ⟨1, ⟨[⟨0, 0, [0, 0, 0]⟩], [false], [[]]⟩, ⟨fun _ => 1, []⟩⟩ 1 2).2.cell = 2 ∧
    logicalRefs 2 (compare_and_swap_copy (fun v => v) 1024 5 0
        ⟨1, ⟨[⟨0, 0, [0, 0, 0]⟩], [false], [[]]⟩, ⟨fun _ => 1, []⟩⟩ 1 2).2 =
      logicalRefs 2 ⟨1, ⟨[⟨0, 0, [0, 0, 0]⟩], [false], [[]]⟩, ⟨fun _ => 1, []⟩⟩ +
        (if 2 = 2 then 1 else 0) - (if 2 = 1 then 1 else 0) ∧
    logicalRefs 1 (compare_and_swap_copy (fun v => v) 1024 5 0
        ⟨1, ⟨[⟨0, 0, [0, 0, 0]⟩], [false], [[]]⟩, ⟨fun _ => 1, []⟩⟩ 1 2).2 =
      logicalRefs 1 ⟨1, ⟨[⟨0, 0, [0, 0, 0]⟩], [false], [[]]⟩, ⟨fun _ => 1, []⟩⟩ +
        (if 1 = 2 then 1 else 0) - (if 1 = 1 then 1 else 0) ∧
    (compare_and_swap_move (fun v => v) 1024 5 0
      ⟨1, ⟨[⟨0, 0, [0, 0, 0]⟩], [false], [[]]⟩, ⟨fun _ => 1, []⟩⟩ 1 2).1 = true ∧
    (compare_and_swap_move (fun v => v) 1024 5 0
      ⟨1, ⟨[⟨0, 0, [0, 0, 0]⟩], [false], [[]]⟩, ⟨fun _ => 1, []⟩⟩ 1 2).2.1.cell = 2 ∧
    (compare_and_swap_move (fun v => v) 1024 5 0
      ⟨1, ⟨[⟨0, 0, [0, 0, 0]⟩], [false], [[]]⟩, ⟨fun _ => 1, []⟩⟩ 1 2).2.2 = 0 ∧
    logicalRefs 1 (compare_and_swap_move (fun v => v) 1024 5 0
        ⟨1, ⟨[⟨0, 0, [0, 0, 0]⟩], [false], [[]]⟩, ⟨fun _ => 1, []⟩⟩ 1 2).2.1 =
      logicalRefs 1 ⟨1, ⟨[⟨0, 0, [0, 0, 0]⟩], [false], [[]]⟩, ⟨fun _ => 1, []⟩⟩ -
        (if 1 = 1 then 1 else 0) := by
  obtain ⟨hsucc, -⟩ := compare_and_swap_semantics (fun v => v) 1024 5 0
    ⟨1, ⟨[⟨0, 0, [0, 0, 0]⟩], [false], [[]]⟩, ⟨fun _ => 1, []⟩⟩ 1 2
    (by decide) (by decide) (by decide) (by decide)
    (fun p => by show (1 : Nat) < U64; decide)
    (fun q => by show (0 : Nat) ≤ 1; decide)
    (fun _ => by show (0 : Nat) < 1; decide)
    (by show (1 : Nat) + 1 < U64; decide)
  obtain ⟨c1, c2, c3, m1, m2, m3, m4⟩ := hsucc rfl
  exact ⟨c1, c2, c3 2 (by decide), c3 1 (by decide), m1, m2, m3, m4 1 (by decide)⟩

/-! ## Quiescent draining by further retires -/

theorem retireMany_cons (hash : Nat → Nat) (B delay id x : Nat) (xs : List Nat)
    (s : Engine × Heap) :
    retireMany hash B delay id (x :: xs) s =
      retireMany hash B delay id xs (retire hash B delay x id s) := rfl

theorem performDeferredAux_succ (hash : Nat → Nat) (B delay id fuel : Nat)
    (s : Engine × Heap) :
    performDeferredAux hash B delay id (fuel + 1) s =
      if flushCond delay id s.1 then
        performDeferredAux hash B delay id fuel (flushOnce hash B id s.1 s.2)
      else s := rfl

/-- In a quiescent state (nothing announced), once enough further
retires by the same worker bring its queue to the threshold, the flush
empties the queue and every pointer whose stored count equals its owed
decrements is freed. -/
theorem retireMany_quiescent (hash : Nat → Nat) (B delay id : Nat) (hB : 0 < B) :
    ∀ (ps : List Nat) (e : Engine) (h : Heap) (p : Nat),
      announcedList e.announcement_slots = [] →
      e.in_progress.getD id true = false →
      id < e.deferred_destructs.length →
      HeapWf h →
      (∀ z ∈ e.deferred_destructs.getD id [], z ≠ 0) →
      (∀ z ∈ ps, z ≠ 0) →
      0 < ps.length →
      (e.deferred_destructs.getD id []).length + ps.length =
        e.announcement_slots.length * delay →
      h.refs p = (e.deferred_destructs.getD id [] ++ ps).count p →
      0 < (e.deferred_destructs.getD id [] ++ ps).count p →
      (retireMany hash B delay id ps (e, h)).1.deferred_destructs.getD id [] = [] ∧
      p ∈ (retireMany hash B delay id ps (e, h)).2.freed := by
  intro ps
  induction ps with
  | nil => intro e h p _ _ _ _ _ _ hpos _ _ _; simp at hpos
  | cons x xs ih =>
      intro e h p hq hip hid hw hqnz0 hpsnz _ hlen hacc hcnt
      have hx0 : x ≠ 0 := hpsnz x (by simp)
      have hgetD' : (Engine.mk e.announcement_slots e.in_progress
          (e.deferred_destructs.set id
            ((e.deferred_destructs.getD id []) ++ [x]))).deferred_destructs.getD id [] =
          (e.deferred_destructs.getD id []) ++ [x] := by
        dsimp only
        exact getD_set_self e.deferred_destructs id _ [] hid
      have hret : retire hash B delay x id (e, h) =
          performDeferredAux hash B delay id 2
            (Engine.mk e.announcement_slots e.in_progress
              (e.deferred_destructs.set id
                ((e.deferred_destructs.getD id []) ++ [x])), h) := rfl
      cases xs with
      | nil =>
          -- the push reaches the threshold: the flush empties the queue
          simp only [List.length_cons, List.length_nil] at hlen
          have hcond1 : flushCond delay id (Engine.mk e.announcement_slots e.in_progress
              (e.deferred_destructs.set id
                ((e.deferred_destructs.getD id []) ++ [x]))) = true := by
            unfold flushCond
            dsimp only
            rw [getD_set_self e.deferred_destructs id _ [] hid, hip]
            have hle : e.announcement_slots.length * delay ≤
                ((e.deferred_destructs.getD id []) ++ [x]).length := by
              rw [List.length_append, List.length_singleton]
              omega
            rw [decide_eq_true hle]
            rfl
          have hq' : announcedList (Engine.mk e.announcement_slots e.in_progress
              (e.deferred_destructs.set id
                ((e.deferred_destructs.getD id []) ++ [x]))).announcement_slots =
              ([] : List Nat) := hq
          have hA' : (announcedList (Engine.mk e.announcement_slots e.in_progress
              (e.deferred_destructs.set id
                ((e.deferred_destructs.getD id []) ++ [x]))).announcement_slots).length ≤
              65535 := by
            rw [hq']
            simp
          have hLnz' : ∀ z ∈ (Engine.mk e.announcement_slots e.in_progress
              (e.deferred_destructs.set id
                ((e.deferred_destructs.getD id []) ++ [x]))).deferred_destructs.getD id [],
              z ≠ 0 := by
            intro z hz
            rw [hgetD', List.mem_append] at hz
            cases hz with
            | inl hz => exact hqnz0 z hz
            | inr hz =>
                rw [List.mem_singleton] at hz
                subst hz
                exact hx0
          obtain ⟨fs1, _fs2, fs3, fs4⟩ := flushOnce_spec hash B id
            (Engine.mk e.announcement_slots e.in_progress
              (e.deferred_destructs.set id
                ((e.deferred_destructs.getD id []) ++ [x]))) h hB hA' hLnz'
          rw [hgetD', hq'] at fs3 fs4
          simp only [Multiset.coe_nil] at fs3 fs4
          rw [processSpec_zero_surv] at fs3
          have hflush_q : (flushOnce hash B id (Engine.mk e.announcement_slots e.in_progress
              (e.deferred_destructs.set id
                ((e.deferred_destructs.getD id []) ++ [x]))) h).1.deferred_destructs =
              e.deferred_destructs.set id [] := by
            rw [fs3]
            rw [List.set_set]
          have hcond2 : flushCond delay id (flushOnce hash B id
              (Engine.mk e.announcement_slots e.in_progress
                (e.deferred_destructs.set id
                  ((e.deferred_destructs.getD id []) ++ [x]))) h).1 = false := by
            apply flushCond_false_of_small
            rw [hflush_q, fs1]
            dsimp only
            rw [getD_set_self e.deferred_destructs id [] [] hid]
            simp only [List.length_nil]
            omega
          have haux : performDeferredAux hash B delay id 2
              (Engine.mk e.announcement_slots e.in_progress
                (e.deferred_destructs.set id
                  ((e.deferred_destructs.getD id []) ++ [x])), h) =
              flushOnce hash B id (Engine.mk e.announcement_slots e.in_progress
                (e.deferred_destructs.set id
                  ((e.deferred_destructs.getD id []) ++ [x]))) h := by
            rw [performDeferredAux_succ]
            dsimp only
            rw [hcond1]
            rw [if_pos rfl]
            exact performDeferredAux_no_flush hash B delay id 1 _ hcond2
          have hfinal : retireMany hash B delay id [x] (e, h) =
              flushOnce hash B id (Engine.mk e.announcement_slots e.in_progress
                (e.deferred_destructs.set id
                  ((e.deferred_destructs.getD id []) ++ [x]))) h := by
            rw [show retireMany hash B delay id [x] (e, h) =
              retire hash B delay x id (e, h) from rfl, hret, haux]
          rw [hfinal]
          constructor
          · rw [hflush_q]
            exact getD_set_self e.deferred_destructs id [] [] hid
          · rw [fs4]
            exact processSpec_zero_freed _ h p hw hacc hcnt
      | cons y ys =>
          -- below the threshold: the retire's flush loop is a no-op
          have hsmall : flushCond delay id (Engine.mk e.announcement_slots e.in_progress
              (e.deferred_destructs.set id
                ((e.deferred_destructs.getD id []) ++ [x]))) = false := by
            apply flushCond_false_of_small
            dsimp only
            rw [getD_set_self e.deferred_destructs id _ [] hid, List.length_append,
              List.length_singleton]
            simp only [List.length_cons] at hlen
            omega
          have hnof : retire hash B delay x id (e, h) =
              (Engine.mk e.announcement_slots e.in_progress
                (e.deferred_destructs.set id
                  ((e.deferred_destructs.getD id []) ++ [x])), h) := by
            rw [hret]
            exact performDeferredAux_no_flush hash B delay id 2 _ hsmall
          rw [retireMany_cons, hnof]
          apply ih (Engine.mk e.announcement_slots e.in_progress
            (e.deferred_destructs.set id
              ((e.deferred_destructs.getD id []) ++ [x]))) h p hq hip
          · dsimp only
            rw [List.length_set]
            exact hid
          · exact hw
          · intro z hz
            rw [hgetD', List.mem_append] at hz
            cases hz with
            | inl hz => exact hqnz0 z hz
            | inr hz =>
                rw [List.mem_singleton] at hz
                subst hz
                exact hx0
          · intro z hz
            exact hpsnz z (List.mem_cons_of_mem x hz)
          · simp
          · rw [hgetD', List.length_append, List.length_singleton]
            dsimp only
            simp only [List.length_cons] at hlen ⊢
            omega
          · rw [hgetD']
            rw [List.append_assoc]
            exact hacc
          · rw [hgetD']
            rw [List.append_assoc]
            exact hcnt

/-- C5: whenever a worker's deferred queue holds fewer than `W × delay`
entries, `perform_deferred_decrements` applies no decrements and returns
(the whole state is untouched); and in a quiescent system — nothing
announced, and a retired box `p`'s stored count equal to its owed
decrements — `p` is freed within `W × delay − queue-size` further
`retire` calls (a number bounded by `W × delay`), after which the
worker's queue is empty. -/
theorem perform_deferred_amortization (hash : Nat → Nat) (B delay id : Nat)
    (e : Engine) (h : Heap) (p : Nat) (ps : List Nat) (hB : 0 < B) :
    ((e.deferred_destructs.getD id []).length < e.announcement_slots.length * delay →
      perform_deferred_decrements hash B delay id (e, h) = (e, h)) ∧
    (announcedList e.announcement_slots = [] →
      e.in_progress.getD id true = false →
      id < e.deferred_destructs.length →
      HeapWf h →
      (∀ z ∈ e.deferred_destructs.getD id [], z ≠ 0) →
      (∀ z ∈ ps, z ≠ 0) →
      p ∈ e.deferred_destructs.getD id [] →
      (e.deferred_destructs.getD id []).length + ps.length =
        e.announcement_slots.length * delay →
      0 < ps.length →
      h.refs p = (e.deferred_destructs.getD id [] ++ ps).count p →
      ((retireMany hash B delay id ps (e, h)).1.deferred_destructs.getD id [] = [] ∧
        p ∈ (retireMany hash B delay id ps (e, h)).2.freed ∧
        ps.length ≤ e.announcement_slots.length * delay)) := by
  constructor
  · intro hlt
    exact performDeferredAux_no_flush hash B delay id 2 (e, h)
      (flushCond_false_of_small delay id e hlt)
  · intro hq hip hid hw hqnz0 hpsnz hpmem hlen hpos hacc
    have hcnt : 0 < (e.deferred_destructs.getD id [] ++ ps).count p := by
      have h1 : 0 < (e.deferred_destructs.getD id []).count p :=
        List.count_pos_iff.mpr hpmem
      rw [List.count_append]
      omega
    obtain ⟨c1, c2⟩ := retireMany_quiescent hash B delay id hB ps e h p hq hip hid hw
      hqnz0 hpsnz hpos hlen hacc hcnt
    exact ⟨c1, c2, by omega⟩

/-- Witness for C5: one worker (`W = 1`, `delay = 5`), queue
`[5, 5, 5, 5]` (four owed decrements of box 5, whose count is 4),
nothing announced: `perform_deferred_decrements` is a no-op now, and one
further retire (of box 6) flushes everything — the queue empties and
box 5 is freed. -/
theorem perform_deferred_amortization_witness :
    perform_deferred_decrements (fun v => v) 1024 5 0
      (⟨[⟨0, 0, [0, 0, 0]⟩], [false], [[5, 5, 5, 5]]⟩, ⟨fun _ => 4, []⟩) =
      (⟨[⟨0, 0, [0, 0, 0]⟩], [false], [[5, 5, 5, 5]]⟩, ⟨fun _ => 4, []⟩) ∧
    ((retireMany (fun v => v) 1024 5 0 [6]
        (⟨[⟨0, 0, [0, 0, 0]⟩], [false], [[5, 5, 5, 5]]⟩,
          ⟨fun _ => 4, []⟩)).1.deferred_destructs.getD 0 [] = [] ∧
      5 ∈ (retireMany (fun v => v) 1024 5 0 [6]
        (⟨[⟨0, 0, [0, 0, 0]⟩], [false], [[5, 5, 5, 5]]⟩, ⟨fun _ => 4, []⟩)).2.freed ∧
      ([6] : List Nat).length ≤ ([⟨0, 0, [0, 0, 0]⟩] : List LocalSlot).length * 5) :=
  ⟨(perform_deferred_amortization (fun v => v) 1024 5 0
      ⟨[⟨0, 0, [0, 0, 0]⟩], [false], [[5, 5, 5, 5]]⟩ ⟨fun _ => 4, []⟩ 5 [6]
      (by decide)).1 (by decide),
   (perform_deferred_amortization (fun v => v) 1024 5 0
      ⟨[⟨0, 0, [0, 0, 0]⟩], [false], [[5, 5, 5, 5]]⟩ ⟨fun _ => 4, []⟩ 5 [6]
      (by decide)).2 (by decide) (by decide) (by decide)
      (fun _ => by show (4 : Nat) < U64; decide) (by decide) (by decide) (by decide)
      (by decide) (by decide) (by decide)⟩

end Parlay
